import Mathlib

/-!
# TeaOS core — shallow embedding and verification

This file embeds the memory core of the TeaOS kernel (physical frame
allocator, ARMv8-A page-table engine, kernel heap, boot-info construction,
syscall entry and user segment loading) as executable Lean definitions and
proves the specification's claims about them.

Machine integers (`u64`, `usize`) are modelled as `Nat`; every bit operation
of the source is translated with the corresponding `Nat` bitwise operation.
The one place the source complements a 64-bit mask (`!(MASK << SHIFT)`) is
modelled as XOR with `0xffffffffffffffff`, which is what u64 negation is.
-/

namespace TeaOS

/-! ## Address constants (aarch64/src/memory/mod.rs, kernel layout.rs) -/

def PAGE_SHIFT : Nat := 12

def PAGE_SIZE : Nat := 1 <<< PAGE_SHIFT

def U64_LIMIT : Nat := 2 ^ 64

def KERNEL_START : Nat := 0xffff000000000000

def KHEAP_START : Nat := 0xffff000200000000

def KHEAP_SIZE : Nat := 4 <<< 30

/-- u64 bitwise NOT of a mask, as the source's `!(MASK << SHIFT)`. -/
def not64 (m : Nat) : Nat := 0xffffffffffffffff ^^^ m

/-! ## Descriptors (aarch64/src/memory/paging.rs)

`Descriptor` is a transparent u64. We model each constructor and setter of
the source on `Nat`. The constructors' `assert!`s become side conditions of
the functions that use them (they are collected in `mapPageD`).
-/

/-- `Shareability` (paging.rs): `Inner = 0b11`, `Outer = 0b10`. -/
inductive Shareability where
  | inner
  | outer
deriving DecidableEq, Repr

def Shareability.toNat : Shareability → Nat
  | .inner => 0b11
  | .outer => 0b10

/-- `MemoryClass` (paging.rs). -/
inductive MemoryClass where
  | normal
  | device
deriving DecidableEq, Repr

/-- `Descriptor::new_page`: `pa | 0b11`, then `set_access_flag` (`|= 1 << 10`).
The source asserts `pa` page-aligned and `< 2^48`; those asserts are checked
by `mapPageD` below. -/
def descNewPage (pa : Nat) : Nat := (pa ||| 0b11) ||| (1 <<< 10)

/-- `Descriptor::set_attr_idx`: clear bits [4:2], then or in `attr_idx << 2`. -/
def descSetAttrIdx (d : Nat) (attrIdx : Nat) : Nat :=
  (d &&& not64 (0b111 <<< 2)) ||| (attrIdx <<< 2)

/-- `Descriptor::set_shareability`: clear bits [9:8], then or in `share << 8`. -/
def descSetShareability (d : Nat) (share : Shareability) : Nat :=
  (d &&& not64 (0b11 <<< 8)) ||| (share.toNat <<< 8)

/-- `Descriptor::address`: `self.0 & 0xfffffffff000` (bits [47:12]). -/
def descAddress (d : Nat) : Nat := d &&& 0xfffffffff000

/-- The page descriptor `map_page` builds: `new_page`, `set_attr_idx`,
`set_shareability` in source order. -/
def buildPageDesc (pa attrIdx : Nat) (share : Shareability) : Nat :=
  descSetShareability (descSetAttrIdx (descNewPage pa) attrIdx) share

/-! ## Page map tree (aarch64/src/memory/paging.rs)

The `PageMap` operates on 512-entry tables reached through the `Mapper`
physmap window; a table descriptor (`0b11` at levels 0–2) points at the
child table, everything else is invalid for the walk (`new_table` is the
only thing this engine ever writes at levels 0–2, so block descriptors do
not occur). We embed the owned four-level tree directly: an entry at levels
0–2 is `none` (invalid) or `some` child table, a level-3 entry is the raw
descriptor word (a freshly allocated table is zeroed, descriptor `0`,
which is invalid). -/

def L3T := Fin 512 → Nat

def L2T := Fin 512 → Option L3T

def L1T := Fin 512 → Option L2T

def L0T := Fin 512 → Option L1T

def emptyL3 : L3T := fun _ => 0

def emptyL2 : L2T := fun _ => none

def emptyL1 : L1T := fun _ => none

/-- `PageMap` with the two MAIR attribute indexes recorded at construction
(`MairIndexes::read` yields indexes 0–7, hence `Fin 8`). -/
structure APageMap where
  level0 : L0T
  mairNormal : Fin 8
  mairDevice : Fin 8

/-- Level index of a VA: `(va >> (39 - 9*level)) & 0x1ff` (paging.rs
`table_index`). -/
def tIdx (va level : Nat) : Fin 512 :=
  ⟨(va >>> (39 - 9 * level)) &&& 0x1ff, Nat.lt_succ_of_le Nat.and_le_right⟩

/-- `PageMap::insert`: walk `lookup` down the tree, allocating (fresh,
zeroed) tables for invalid entries on levels 0–2, then require the level-3
slot to be invalid (break-before-make) and write the descriptor.
`none` models the `assert_eq!(slot.type_(3), DescriptorType::Invalid)`
panic. -/
def insertD (pm : APageMap) (va desc : Nat) : Option APageMap :=
  let i0 := tIdx va 0
  let i1 := tIdx va 1
  let i2 := tIdx va 2
  let i3 := tIdx va 3
  let t1 := (pm.level0 i0).getD emptyL1
  let t2 := (t1 i1).getD emptyL2
  let t3 := (t2 i2).getD emptyL3
  if t3 i3 &&& 0b11 = 0b11 then
    none
  else
    some { pm with
      level0 := Function.update pm.level0 i0
        (some (Function.update t1 i1
          (some (Function.update t2 i2
            (some (Function.update t3 i3 desc)))))) }

/-- `PageMap::map_page`: alignment/size asserts, attribute selection by
memory class, then `insert` of the built page descriptor. -/
def mapPageD (pm : APageMap) (va pa : Nat) (class_ : MemoryClass) :
    Option APageMap :=
  if va % PAGE_SIZE = 0 ∧ pa % PAGE_SIZE = 0 ∧ pa < 2 ^ 48 then
    let attrShare :=
      match class_ with
      | .normal => ((pm.mairNormal : Nat), Shareability.inner)
      | .device => ((pm.mairDevice : Nat), Shareability.outer)
    insertD pm va (buildPageDesc pa attrShare.1 attrShare.2)
  else
    none

/-- Read-only walk of the four-level tree at `va`: follow table entries on
levels 0–2 and return the level-3 descriptor if it is a valid page
descriptor (low bits `0b11`). -/
def lookupD (pm : APageMap) (va : Nat) : Option Nat := do
  let t1 ← pm.level0 (tIdx va 0)
  let t2 ← t1 (tIdx va 1)
  let t3 ← t2 (tIdx va 2)
  let d := t3 (tIdx va 3)
  if d &&& 0b11 = 0b11 then some d else none

/-! ## Bit-manipulation toolkit -/

lemma testBit_false_of_align {pa : Nat} (h : pa % 4096 = 0) {i : Nat}
    (hi : i < 12) : pa.testBit i = false := by
  have h2 : pa % 2 ^ 12 = 0 := by norm_num; omega
  have ht := Nat.testBit_mod_two_pow pa 12 i
  rw [h2] at ht
  simpa [hi] using ht.symm

/-- Disjointness from alignment: a value below `2^k` shares no bits with a
multiple of `2^k`. -/
lemma and_eq_zero_of_lt_of_align {x m k : Nat} (hx : x < 2 ^ k)
    (hm : m % 2 ^ k = 0) : x &&& m = 0 := by
  apply Nat.eq_of_testBit_eq
  intro i
  simp only [Nat.testBit_and, Nat.zero_testBit]
  rcases Nat.lt_or_ge i k with hik | hik
  · have : m.testBit i = false := by
      have ht := Nat.testBit_mod_two_pow m k i
      rw [hm] at ht
      simpa [hik] using ht.symm
    simp [this]
  · have : x.testBit i = false :=
      Nat.testBit_lt_two_pow (lt_of_lt_of_le hx (Nat.pow_le_pow_right (by norm_num) hik))
    simp [this]

/-- Clearing bits that are already clear is the identity: for `x < 2^64`
with `x &&& m = 0`, `x &&& !m = x` (u64 complement). -/
lemma and_not64_eq_self {x m : Nat} (hx : x < 2 ^ 64) (hxm : x &&& m = 0) :
    x &&& not64 m = x := by
  apply Nat.eq_of_testBit_eq
  intro i
  have hN : (0xffffffffffffffff : Nat) = 2 ^ 64 - 1 := by norm_num
  simp only [not64, hN, Nat.testBit_and, Nat.testBit_xor,
    Nat.testBit_two_pow_sub_one]
  rcases Nat.lt_or_ge i 64 with hik | hik
  · have hband : (x &&& m).testBit i = false := by rw [hxm]; simp
    rw [Nat.testBit_and] at hband
    rcases hb : x.testBit i with _ | _
    · simp [hb, hik]
    · rw [hb] at hband
      simp only [Bool.true_and] at hband
      simp [hb, hband, hik]
  · have : x.testBit i = false :=
      Nat.testBit_lt_two_pow (lt_of_lt_of_le hx (Nat.pow_le_pow_right (by norm_num) hik))
    simp [this]

/-- Oring bits into a page-aligned value is addition. -/
lemma align_or_eq_add {pa c : Nat} (hpa : pa % 4096 = 0) (hc : c < 4096) :
    pa ||| c = pa + c := by
  have hdvd : 2 ^ 12 ∣ pa := by
    refine Nat.dvd_of_mod_eq_zero ?_
    norm_num
    omega
  have hrep : pa = 2 ^ 12 * (pa / 2 ^ 12) := (Nat.mul_div_cancel' hdvd).symm
  have hc' : c < 2 ^ 12 := by norm_num; omega
  rw [hrep]
  exact (Nat.mul_add_lt_is_or hc' _).symm

/-- Bits [47:12] of `pa + c` recover `pa` when `pa` is page-aligned, below
`2^48`, and `c < 4096`. -/
lemma add_small_and_mask4712 {pa c : Nat} (hpa : pa % 4096 = 0)
    (h48 : pa < 2 ^ 48) (hc : c < 4096) :
    (pa + c) &&& 0xfffffffff000 = pa := by
  have hM : (0xfffffffff000 : Nat) = (2 ^ 36 - 1) <<< 12 := by decide
  rw [← align_or_eq_add hpa hc, hM]
  apply Nat.eq_of_testBit_eq
  intro i
  simp only [Nat.testBit_and, Nat.testBit_or, Nat.testBit_shiftLeft,
    Nat.testBit_two_pow_sub_one]
  rcases Nat.lt_or_ge i 12 with h12 | h12
  · have hp : pa.testBit i = false := testBit_false_of_align hpa h12
    have : decide (12 ≤ i) = false := by simp; omega
    simp [hp, this]
  · have hcb : c.testBit i = false :=
      Nat.testBit_lt_two_pow (lt_of_lt_of_le (by omega : c < 2 ^ 12)
        (Nat.pow_le_pow_right (by norm_num) h12))
    rcases Nat.lt_or_ge i 48 with h48i | h48i
    · have h1 : decide (12 ≤ i) = true := by simpa using h12
      have h2 : decide (i - 12 < 36) = true := by simp; omega
      simp [hcb, h1, h2]
    · have hp : pa.testBit i = false :=
        Nat.testBit_lt_two_pow (lt_of_lt_of_le h48
          (Nat.pow_le_pow_right (by norm_num) h48i))
      have h2 : decide (i - 12 < 36) = false := by simp; omega
      simp [hp, hcb, h2]

/-- The low-bits part of the built page descriptor, summed out. -/
lemma low_or_sum {a s : Nat} (ha : a < 8) (hs : s < 4) :
    (1027 ||| a <<< 2) ||| s <<< 8 = 1027 + 4 * a + 256 * s := by
  interval_cases a <;> interval_cases s <;> decide

/-- An aligned value shares no bits with a small one. -/
lemma align_and_small_eq_zero {pa c : Nat} (k : Nat) (hpa : pa % 2 ^ k = 0)
    (hc : c < 2 ^ k) : pa &&& c = 0 := by
  rw [Nat.and_comm]
  exact and_eq_zero_of_lt_of_align hc hpa

/-- Normal form of the page descriptor built by `map_page`
(`new_page` + `set_attr_idx` + `set_shareability`). -/
lemma buildPageDesc_eq {pa : Nat} (a : Nat) (s : Shareability)
    (hpa : pa % 4096 = 0) (h48 : pa < 2 ^ 48) (ha : a < 8) :
    buildPageDesc pa a s = pa + (1027 + 4 * a + 256 * s.toNat) := by
  have hs : s.toNat < 4 := by cases s <;> decide
  have hpa12 : pa % 2 ^ 12 = 0 := by norm_num; omega
  have hpa64 : pa < 2 ^ 64 := lt_of_lt_of_le h48 (by norm_num)
  have ha4 : a <<< 2 = 4 * a := by rw [Nat.shiftLeft_eq]; ring
  unfold buildPageDesc descSetShareability descSetAttrIdx descNewPage
  -- new_page: pa ||| 0b11 ||| (1 <<< 10) = pa ||| 1027
  have h310 : ((0b11 : Nat) ||| 1 <<< 10) = 1027 := by decide
  rw [Nat.or_assoc, h310]
  -- the attr_idx clear is a no-op: bits [4:2] of pa ||| 1027 are clear
  have hz1 : (pa ||| 1027) &&& 0b111 <<< 2 = 0 := by
    rw [Nat.and_distrib_right, align_and_small_eq_zero 12 hpa12 (by decide)]
    decide
  rw [and_not64_eq_self (Nat.or_lt_two_pow hpa64 (by norm_num)) hz1]
  rw [Nat.or_assoc]
  -- the shareability clear is a no-op: bits [9:8] are clear
  have hz2a : (1027 : Nat) &&& 0b11 <<< 8 = 0 := by decide
  have hz2b : a <<< 2 &&& 0b11 <<< 8 = 0 :=
    and_eq_zero_of_lt_of_align (k := 5) (by rw [ha4]; omega) (by decide)
  have hz2 : (pa ||| (1027 ||| a <<< 2)) &&& 0b11 <<< 8 = 0 := by
    rw [Nat.and_distrib_right, align_and_small_eq_zero 12 hpa12 (by decide),
      Nat.and_distrib_right, hz2a, hz2b]
    decide
  rw [and_not64_eq_self
    (Nat.or_lt_two_pow hpa64 (Nat.or_lt_two_pow (by norm_num)
      (by rw [ha4]; norm_num; omega))) hz2]
  rw [Nat.or_assoc, low_or_sum ha hs]
  exact align_or_eq_add hpa (by omega)

/-! ## Insert/walk lemmas for the page-map tree -/

/-- After a successful `insert` of a valid descriptor, the read-only walk
returns exactly that descriptor. -/
lemma lookupD_after_insertD {pm pm' : APageMap} {va desc : Nat}
    (hd : desc &&& 0b11 = 0b11) (h : insertD pm va desc = some pm') :
    lookupD pm' va = some desc := by
  simp only [insertD] at h
  split at h
  · exact absurd h (by simp)
  · injection h with h
    subst h
    simp [lookupD, hd]

/-- `insert` panics exactly when the walk finds an existing valid level-3
descriptor at the VA. -/
lemma insertD_none_iff (pm : APageMap) (va desc : Nat) :
    insertD pm va desc = none ↔ ∃ d, lookupD pm va = some d := by
  simp only [insertD, lookupD]
  rcases h0 : pm.level0 (tIdx va 0) with _ | t1
  · simp [h0, emptyL1, emptyL2, emptyL3]
  · rcases h1 : t1 (tIdx va 1) with _ | t2
    · simp [h0, h1, emptyL2, emptyL3]
    · rcases h2 : t2 (tIdx va 2) with _ | t3
      · simp [h0, h1, h2, emptyL3]
      · by_cases hv : t3 (tIdx va 3) &&& 0b11 = 0b11 <;>
          simp [h0, h1, h2, hv]

lemma PAGE_SIZE_eq : PAGE_SIZE = 4096 := rfl

/-- Bit facts about the built page descriptor, in the shape the walk
theorem needs. -/
lemma buildPageDesc_facts {pa a : Nat} (s : Shareability)
    (hpa : pa % 4096 = 0) (h48 : pa < 2 ^ 48) (ha : a < 8) :
    descAddress (buildPageDesc pa a s) = pa ∧
    (buildPageDesc pa a s).testBit 10 = true ∧
    buildPageDesc pa a s &&& 0b11 = 0b11 := by
  have hs : s.toNat < 4 := by cases s <;> decide
  have nf := buildPageDesc_eq a s hpa h48 ha
  refine ⟨?_, ?_, ?_⟩
  · rw [descAddress, nf]
    exact add_small_and_mask4712 hpa h48 (by omega)
  · rw [nf, Nat.testBit_to_div_mod]
    simp only [decide_eq_true_eq]
    norm_num
    omega
  · have h3 : (0b11 : Nat) = 2 ^ 2 - 1 := by decide
    rw [nf, h3, Nat.and_pow_two_sub_one_eq_mod]
    norm_num
    omega

/-- A successful `map_page` leaves a valid page descriptor at the VA, with
the output PA, access flag and valid bits of the claim. -/
lemma mapPageD_walk_aux {pm pm' : APageMap} {va pa : Nat} {c : MemoryClass}
    (h : mapPageD pm va pa c = some pm') :
    ∃ d, lookupD pm' va = some d ∧ descAddress d = pa ∧
      d.testBit 10 = true ∧ d &&& 0b11 = 0b11 := by
  simp only [mapPageD] at h
  split at h
  case isFalse => exact absurd h (by simp)
  case isTrue hcond =>
    obtain ⟨hva, hpa, h48⟩ := hcond
    rw [PAGE_SIZE_eq] at hpa
    cases c
    · simp only at h
      have facts := buildPageDesc_facts (a := (pm.mairNormal : Nat))
        Shareability.inner hpa h48 pm.mairNormal.isLt
      exact ⟨_, lookupD_after_insertD facts.2.2 h, facts⟩
    · simp only at h
      have facts := buildPageDesc_facts (a := (pm.mairDevice : Nat))
        Shareability.outer hpa h48 pm.mairDevice.isLt
      exact ⟨_, lookupD_after_insertD facts.2.2 h, facts⟩

/-- A fresh `PageMap` (`PageMap::new`: zeroed root table) with the usual
MAIR layout (Device at index 0, Normal at index 1). -/
def emptyPM : APageMap :=
  { level0 := fun _ => none, mairNormal := 1, mairDevice := 0 }

/-- A concrete page map with VA `0x12000` mapped to PA `0x80000000`
(spec scenario 3). -/
def pmEx1 : APageMap :=
  (mapPageD emptyPM 0x12000 0x80000000 .normal).getD emptyPM

/-- C2: for every PageMap and page-aligned VPN `v`, after
`map_page(v, f, flags)` succeeds, walking the four-level tree at `v` yields
a level-3 descriptor whose output PA (bits [47:12]) equals `f`'s base PA,
whose access flag (bit 10) is set, and whose low two bits are `0b11`. -/
theorem map_page_walk_descriptor (pm pm' : APageMap) (va pa : Nat)
    (c : MemoryClass) (h : mapPageD pm va pa c = some pm') :
    ∃ d, lookupD pm' va = some d ∧ descAddress d = pa ∧
      d.testBit 10 = true ∧ d &&& 0b11 = 0b11 :=
  mapPageD_walk_aux h

/-- Witness for C2 at the spec's concrete scenario: mapping VA `0x12000`
to PA `0x80000000` in a fresh map. -/
theorem map_page_walk_descriptor_witness :
    ∃ d, lookupD pmEx1 0x12000 = some d ∧ descAddress d = 0x80000000 ∧
      d.testBit 10 = true ∧ d &&& 0b11 = 0b11 :=
  map_page_walk_descriptor emptyPM pmEx1 0x12000 0x80000000 .normal rfl

/-- C3: break-before-make: if a valid level-3 descriptor exists at the VA,
`insert` (hence a second `map_page` at the same VPN) panics instead of
overwriting; if the slot is invalid, the insert succeeds. -/
theorem break_before_make (pm : APageMap) (va desc : Nat) :
    ((∃ d, lookupD pm va = some d) → insertD pm va desc = none) ∧
    (lookupD pm va = none → ∃ pm', insertD pm va desc = some pm') ∧
    (∀ pm' pa c, mapPageD pm va pa c = some pm' →
      ∀ pa2 c2, mapPageD pm' va pa2 c2 = none) := by
  refine ⟨fun h => (insertD_none_iff pm va desc).mpr h, fun hl => ?_, ?_⟩
  · rcases hins : insertD pm va desc with _ | pm'
    · obtain ⟨d, hd⟩ := (insertD_none_iff pm va desc).mp hins
      rw [hl] at hd
      exact absurd hd (by simp)
    · exact ⟨pm', rfl⟩
  · intro pm' pa c h pa2 c2
    obtain ⟨d, hlook, -⟩ := mapPageD_walk_aux h
    simp only [mapPageD]
    split
    · exact (insertD_none_iff pm' va _).mpr ⟨d, hlook⟩
    · rfl

/-- Witness for C3: inserting again at the already-mapped VA `0x12000` of
`pmEx1` panics (spec scenario 4). -/
theorem break_before_make_witness : insertD pmEx1 0x12000 77 = none :=
  (break_before_make pmEx1 0x12000 77).1 ⟨_, rfl⟩

/-! ## Page descriptors of the kernel page tables
(teaos/src/memory/virt/page_table.rs)

`PageDesc` is a transparent u64 with the same bit setters as the aarch64
`Descriptor`. `PageMap::map_ram` (page_map.rs) builds one with `new`,
`set_access_flag`, `set_attr_idx(normal)`, `set_shareability(Inner)`. -/

/-- `PageDesc::new`: `base | 0b11`. -/
def pageDescNew (base : Nat) : Nat := base ||| 0b11

/-- `PageDesc::set_access_flag`: `|= 1 << 10`. -/
def pageDescSetAccessFlag (d : Nat) : Nat := d ||| (1 <<< 10)

/-- `PageDesc::set_attr_idx`: clear bits [4:2], or in `attr_idx << 2`. -/
def pageDescSetAttrIdx (d attrIdx : Nat) : Nat :=
  (d &&& not64 (0b111 <<< 2)) ||| (attrIdx <<< 2)

/-- `PageDesc::set_shareability`: clear bits [9:8], or in `share << 8`. -/
def pageDescSetShareability (d : Nat) (share : Shareability) : Nat :=
  (d &&& not64 (0b11 <<< 8)) ||| (share.toNat <<< 8)

/-- `PageDesc::output_addr`: `self.0 & 0xfffffffff000`. -/
def pageDescOutputAddr (d : Nat) : Nat := d &&& 0xfffffffff000

/-- The page descriptor `PageMap::map_ram` builds, in source order. -/
def buildRamPageDesc (pa attrIdx : Nat) (share : Shareability) : Nat :=
  pageDescSetShareability
    (pageDescSetAttrIdx (pageDescSetAccessFlag (pageDescNew pa)) attrIdx) share

lemma buildRamPageDesc_eq (pa a : Nat) (s : Shareability) :
    buildRamPageDesc pa a s = buildPageDesc pa a s := rfl

/-- C5 counterexample: the claim places SH in bits [8:7]; on the descriptor
the engine builds for PA `0x80000000`, attribute index 1, Inner shareability,
bits [8:7] read `0b10`, not the Inner value `0b11` that was set. -/
theorem pageDesc_sh_bits87_counterexample :
    ¬ ((buildRamPageDesc 0x80000000 1 .inner >>> 7) &&& 0b11 =
        Shareability.inner.toNat) := by decide

/-- C5 (amended): a level-3 page descriptor built by the page-table engine
has low bits `0b11`, AF=1 (bit 10), AttrIndx in bits [4:2], SH in bits
[9:8] (not [8:7]), and the output PA in bits [47:12]. -/
theorem pageDesc_layout (pa a : Nat) (s : Shareability)
    (hpa : pa % 4096 = 0) (h48 : pa < 2 ^ 48) (ha : a < 8) :
    buildRamPageDesc pa a s &&& 0b11 = 0b11 ∧
    (buildRamPageDesc pa a s).testBit 10 = true ∧
    (buildRamPageDesc pa a s >>> 2) &&& 0b111 = a ∧
    (buildRamPageDesc pa a s >>> 8) &&& 0b11 = s.toNat ∧
    pageDescOutputAddr (buildRamPageDesc pa a s) = pa := by
  have hs : s.toNat < 4 := by cases s <;> decide
  have nf : buildRamPageDesc pa a s = pa + (1027 + 4 * a + 256 * s.toNat) :=
    (buildRamPageDesc_eq pa a s).trans (buildPageDesc_eq a s hpa h48 ha)
  have facts := buildPageDesc_facts s hpa h48 ha
  rw [buildRamPageDesc_eq]
  refine ⟨facts.2.2, facts.2.1, ?_, ?_, facts.1⟩
  · have h7 : (0b111 : Nat) = 2 ^ 3 - 1 := by decide
    rw [← buildRamPageDesc_eq, nf, Nat.shiftRight_eq_div_pow, h7,
      Nat.and_pow_two_sub_one_eq_mod]
    norm_num
    omega
  · have h3 : (0b11 : Nat) = 2 ^ 2 - 1 := by decide
    rw [← buildRamPageDesc_eq, nf, Nat.shiftRight_eq_div_pow, h3,
      Nat.and_pow_two_sub_one_eq_mod]
    norm_num
    omega

/-- Witness for C5 (amended) at PA `0x80000000`, attribute index 1, Inner
shareability. -/
theorem pageDesc_layout_witness :
    buildRamPageDesc 0x80000000 1 .inner &&& 0b11 = 0b11 ∧
    (buildRamPageDesc 0x80000000 1 .inner).testBit 10 = true ∧
    (buildRamPageDesc 0x80000000 1 .inner >>> 2) &&& 0b111 = 1 ∧
    (buildRamPageDesc 0x80000000 1 .inner >>> 8) &&& 0b11 =
      Shareability.inner.toNat ∧
    pageDescOutputAddr (buildRamPageDesc 0x80000000 1 .inner) = 0x80000000 :=
  pageDesc_layout 0x80000000 1 .inner (by norm_num) (by norm_num) (by norm_num)

/-! ## Physical memory (teaos/src/memory/phys/mod.rs,
kernel/src/memory/phys/alloc.rs)

The low-level `FrameAllocator` keeps an intrusive freelist: the head PFN
in `freelist`, and in the first word of every free frame the
`Option<FrameNr>` link to the next free frame. We model that word in
`nextPtr`, keyed by PFN. `content` models the frame byte contents (PFN →
offset → byte); the first 16 bytes of a *free* frame physically alias the
intrusive link tracked in `nextPtr`, so claims proved here only inspect
contents of allocated frames at offsets ≥ 16, or frames that were zeroed
wholesale. -/

/-- `Frame`: metadata tracked about an allocated page frame. -/
structure Frame where
  pfn : Nat
  refcount : Nat
deriving Repr

def FL4 := Fin 256 → Option Frame

def FL3 := Fin 512 → Option FL4

def FL2 := Fin 512 → Option FL3

def FL1 := Fin 512 → Option FL2

/-- `FrameMap`: five-level sparse radix map keyed by the 36-bit PFN,
fan-out `{1, 9, 9, 9, 8}` bits from the MSB (`level_idx`). -/
structure FrameMap where
  level0 : Fin 2 → Option FL1

/-- `FrameMap::level_idx` for level 0: `(bits >> 35) & 0x1`. -/
def flIdx0 (pfn : Nat) : Fin 2 :=
  ⟨(pfn >>> 35) &&& 0x1, Nat.lt_succ_of_le Nat.and_le_right⟩

/-- `FrameMap::level_idx` for level 1: `(bits >> 26) & 0x1ff`. -/
def flIdx1 (pfn : Nat) : Fin 512 :=
  ⟨(pfn >>> 26) &&& 0x1ff, Nat.lt_succ_of_le Nat.and_le_right⟩

/-- `FrameMap::level_idx` for level 2: `(bits >> 17) & 0x1ff`. -/
def flIdx2 (pfn : Nat) : Fin 512 :=
  ⟨(pfn >>> 17) &&& 0x1ff, Nat.lt_succ_of_le Nat.and_le_right⟩

/-- `FrameMap::level_idx` for level 3: `(bits >> 8) & 0x1ff`. -/
def flIdx3 (pfn : Nat) : Fin 512 :=
  ⟨(pfn >>> 8) &&& 0x1ff, Nat.lt_succ_of_le Nat.and_le_right⟩

/-- `FrameMap::level_idx` for level 4: `bits & 0xff`. -/
def flIdx4 (pfn : Nat) : Fin 256 :=
  ⟨pfn &&& 0xff, Nat.lt_succ_of_le Nat.and_le_right⟩

/-- State of the physical memory subsystem: the `FrameAllocator` freelist,
the intrusive next links, the frame contents, and the PMM `FrameMap`. -/
structure PhysState where
  freelist : Option Nat
  nextPtr : Nat → Option Nat
  content : Nat → Nat → Nat
  frames : FrameMap

/-- `FrameAllocator::alloc`: pop the freelist head, follow its intrusive
link; `none` models the `panic!("no free frames available")`. -/
def allocFrame (s : PhysState) : Option (Nat × PhysState) :=
  match s.freelist with
  | none => none
  | some pfn => some (pfn, { s with freelist := s.nextPtr pfn })

/-- `FrameAllocator::free`: write the old head into the frame's first word
and make the frame the new head. -/
def freeFrame (pfn : Nat) (s : PhysState) : PhysState :=
  { s with
    nextPtr := Function.update s.nextPtr pfn s.freelist,
    freelist := some pfn }

/-- The `seed` loop body over consecutive PFNs. -/
def seedAux (pfn : Nat) : Nat → PhysState → PhysState
  | 0, s => s
  | n + 1, s => seedAux (pfn + 1) n (freeFrame pfn s)

/-- `seed(start, pages)`: free each frame of the range in ascending order.
`FrameNr::from_pa` asserts page alignment of `start` (and with it every
`start + i*PAGE_SIZE`); `none` models that panic. -/
def seedPA (start pages : Nat) (s : PhysState) : Option PhysState :=
  if start % PAGE_SIZE = 0 then some (seedAux (start >>> PAGE_SHIFT) pages s)
  else none

/-- `FrameMap::get`. -/
def frameMapGet (m : FrameMap) (pfn : Nat) : Option Frame := do
  let l1 ← m.level0 (flIdx0 pfn)
  let l2 ← l1 (flIdx1 pfn)
  let l3 ← l2 (flIdx2 pfn)
  let l4 ← l3 (flIdx3 pfn)
  l4 (flIdx4 pfn)

/-- `alloc_level`: intermediate map nodes are page-sized and allocated from
the frame allocator itself, then overwritten with `[None; N]` (all-zero
bytes, by the null-pointer/niche layout of the stored options). -/
def allocLevelNode (s : PhysState) : Option (Nat × PhysState) :=
  match allocFrame s with
  | none => none
  | some (pfn, s') =>
    some (pfn, { s' with content := Function.update s'.content pfn (fun _ => 0) })

/-- `FrameMap::insert`: `get_or_insert_with(alloc_level)` on each level in
walk order, then `replace` the level-4 slot, returning the old entry. -/
def frameMapInsert (s : PhysState) (pfn : Nat) (f : Frame) :
    Option (PhysState × Option Frame) := do
  let m := s.frames
  let (s, l1) ←
    match m.level0 (flIdx0 pfn) with
    | some l1 => some (s, l1)
    | none => (allocLevelNode s).map fun x => (x.2, (fun _ => none : FL1))
  let (s, l2) ←
    match l1 (flIdx1 pfn) with
    | some l2 => some (s, l2)
    | none => (allocLevelNode s).map fun x => (x.2, (fun _ => none : FL2))
  let (s, l3) ←
    match l2 (flIdx2 pfn) with
    | some l3 => some (s, l3)
    | none => (allocLevelNode s).map fun x => (x.2, (fun _ => none : FL3))
  let (s, l4) ←
    match l3 (flIdx3 pfn) with
    | some l4 => some (s, l4)
    | none => (allocLevelNode s).map fun x => (x.2, (fun _ => none : FL4))
  let old := l4 (flIdx4 pfn)
  let l4' := Function.update l4 (flIdx4 pfn) (some f)
  let l3' := Function.update l3 (flIdx3 pfn) (some l4')
  let l2' := Function.update l2 (flIdx2 pfn) (some l3')
  let l1' := Function.update l1 (flIdx1 pfn) (some l2')
  let m' : FrameMap := ⟨Function.update m.level0 (flIdx0 pfn) (some l1')⟩
  some ({ s with frames := m' }, old)

/-- Increment the stored refcount of a managed frame
(`Frame::inc_ref`, reached through `get_alloc_frame`/`FrameRef::new`). -/
def frameMapIncRef (s : PhysState) (pfn : Nat) : PhysState :=
  match frameMapGet s.frames pfn with
  | none => s
  | some f =>
    match (frameMapInsert s pfn { f with refcount := f.refcount + 1 }) with
    | some (s', _) => s'
    | none => s

/-- `PhysMemoryManager::alloc`: `alloc_frame()`, insert fresh metadata
(refcount 0, `assert!(old.is_none())`), then `get_alloc_frame` which bumps
the refcount to 1. Returns the PFN of the allocated frame. -/
def pmmAlloc (s : PhysState) : Option (Nat × PhysState) := do
  let (pfn, s₁) ← allocFrame s
  let (s₂, old) ← frameMapInsert s₁ pfn { pfn := pfn, refcount := 0 }
  if old.isSome then none
  else some (pfn, frameMapIncRef s₂ pfn)

/-- `alloc_zero`: `alloc()` then `with_contents(|buf| buf.fill(0))`;
`with_contents` asserts the refcount is exactly 1. -/
def allocZero (s : PhysState) : Option (Nat × PhysState) := do
  let (pfn, s₁) ← pmmAlloc s
  let f ← frameMapGet s₁.frames pfn
  if f.refcount = 1 then
    some (pfn, { s₁ with content := Function.update s₁.content pfn (fun _ => 0) })
  else none

/-! ## `map_data_page` (kernel/src/memory/virt/mod.rs)

`map_data_page(vpn)` calls `phys::alloc()` — not `alloc_zero()` — and hands
the frame to `map_ram_page` with
`Flags::default().privileged_execute_never(true)`. The kernel map entry is
modelled as the mapped PA plus the PXN flag. `Flags` itself is modelled
from the spec (the kernel tree's aarch64 `Flags` type is not under src/):
the only flag `map_data_page` sets is PXN. -/

structure KMapEntry where
  pa : Nat
  pxn : Bool
deriving Repr

/-- Kernel state: the physical subsystem and the VMM kernel page map,
recorded as VPN → mapped entry. -/
structure KState where
  phys : PhysState
  kmap : Nat → Option KMapEntry

/-- `map_data_page(vpn)`: `phys::alloc()`, then `map_ram_page(vpn, frame,
PXN)`. `map_ram` increments the frame's map count and panics (`none`) if
the VPN is already mapped (break-before-make). -/
def mapDataPage (st : KState) (vpn : Nat) : Option KState := do
  let (pfn, phys') ← pmmAlloc st.phys
  match st.kmap vpn with
  | some _ => none
  | none =>
    some { phys := frameMapIncRef phys' pfn,
           kmap := Function.update st.kmap vpn
             (some { pa := pfn <<< PAGE_SHIFT, pxn := true }) }

/-- A pristine physical state: empty freelist and frame map; RAM contents
arbitrary but concrete — every frame holds byte value 7 at offset 100. -/
def initPhys : PhysState :=
  { freelist := none,
    nextPtr := fun _ => none,
    content := fun _ b => if b = 100 then 7 else 0,
    frames := ⟨fun _ => none⟩ }

/-- `initPhys` after `seed(0x40000000, 1)`. -/
def seeded1 : PhysState := (seedPA 0x40000000 1 initPhys).getD initPhys

/-- C1 counterexample: seeding N = 1 frame into a fresh physical memory
manager and calling `alloc()` once (the claim promises one page-aligned PA)
panics instead: `FrameMap::insert` must allocate its first radix level node
from the same freelist, which is already empty. -/
theorem seed_then_drain_counterexample : pmmAlloc seeded1 = none := rfl

/-- `initPhys` after `seed(0x40000000, 6)`. -/
def seeded6 : KState :=
  { phys := (seedPA 0x40000000 6 initPhys).getD initPhys,
    kmap := fun _ => none }

/-- C4 counterexample: after `map_data_page(0x500)` on a six-frame seeded
state, the newly mapped frame still holds byte 7 at offset 100 — its 4096
bytes are not all zero, because `map_data_page` uses `alloc()`, which does
not zero. -/
theorem map_data_page_not_zeroed_counterexample :
    ∃ st', mapDataPage seeded6 0x500 = some st' ∧
      ∃ e, st'.kmap 0x500 = some e ∧ e.pxn = true ∧
        st'.phys.content (e.pa >>> PAGE_SHIFT) 100 = 7 ∧ (7 : Nat) ≠ 0 :=
  ⟨_, rfl, _, rfl, rfl, rfl, by decide⟩

/-- `frameMapIncRef` only touches the frame map: freelist, links and frame
contents are untouched. -/
lemma frameMapIncRef_fields (s : PhysState) (pfn : Nat) :
    (frameMapIncRef s pfn).content = s.content ∧
    (frameMapIncRef s pfn).freelist = s.freelist ∧
    (frameMapIncRef s pfn).nextPtr = s.nextPtr := by
  rcases hget : frameMapGet s.frames pfn with _ | f
  · simp [frameMapIncRef, hget]
  · rcases h0 : s.frames.level0 (flIdx0 pfn) with _ | l1
    · simp [frameMapGet, h0] at hget
    rcases h1 : l1 (flIdx1 pfn) with _ | l2
    · simp [frameMapGet, h0, h1] at hget
    rcases h2 : l2 (flIdx2 pfn) with _ | l3
    · simp [frameMapGet, h0, h1, h2] at hget
    rcases h3 : l3 (flIdx3 pfn) with _ | l4
    · simp [frameMapGet, h0, h1, h2, h3] at hget
    simp [frameMapIncRef, hget, frameMapInsert, h0, h1, h2, h3]

/-- C4 (amended): `map_data_page(vpn)` allocates a fresh frame with
`alloc()` — whose contents are *not* zeroed — and maps it at `vpn` with the
PXN flag; only `alloc_zero()` produces a frame whose 4096 bytes are all
zero. -/
theorem map_data_page_no_zeroing (st : KState) (vpn : Nat) (st' : KState)
    (h : mapDataPage st vpn = some st') :
    (∃ pfn phys', pmmAlloc st.phys = some (pfn, phys') ∧
      st'.kmap vpn = some { pa := pfn <<< PAGE_SHIFT, pxn := true } ∧
      st'.phys.content = phys'.content) ∧
    (∀ s pfn s', allocZero s = some (pfn, s') → ∀ b, s'.content pfn b = 0) := by
  constructor
  · rcases ha : pmmAlloc st.phys with _ | ⟨pfn, phys'⟩
    · simp [mapDataPage, ha] at h
    · simp only [mapDataPage, ha, Option.bind_eq_bind, Option.some_bind] at h
      rcases hk : st.kmap vpn with _ | e
      · rw [hk] at h
        simp only [Option.some.injEq] at h
        subst h
        exact ⟨pfn, phys', rfl, by simp [Function.update_same],
          (frameMapIncRef_fields phys' pfn).1⟩
      · rw [hk] at h
        simp at h
  · intro s pfn s' hz b
    rcases ha : pmmAlloc s with _ | ⟨pfn₁, s₁⟩
    · simp [allocZero, ha] at hz
    · rcases hg : frameMapGet s₁.frames pfn₁ with _ | f
      · simp [allocZero, ha, hg] at hz
      · simp only [allocZero, ha, hg, Option.bind_eq_bind, Option.some_bind] at hz
        split at hz
        · simp only [Option.some.injEq, Prod.mk.injEq] at hz
          obtain ⟨rfl, rfl⟩ := hz
          simp [Function.update_same]
        · simp at hz

/-- The concrete state after `map_data_page(0x500)` on `seeded6`. -/
def mappedEx : KState := (mapDataPage seeded6 0x500).getD seeded6

/-- Witness for C4 (amended) on the concrete six-frame seeded state. -/
theorem map_data_page_no_zeroing_witness :
    (∃ pfn phys', pmmAlloc seeded6.phys = some (pfn, phys') ∧
      mappedEx.kmap 0x500 = some { pa := pfn <<< PAGE_SHIFT, pxn := true } ∧
      mappedEx.phys.content = phys'.content) ∧
    (∀ s pfn s', allocZero s = some (pfn, s') → ∀ b, s'.content pfn b = 0) :=
  map_data_page_no_zeroing seeded6 0x500 mappedEx rfl

/-! ## The freelist chain discipline of seed/alloc (for C1) -/

/-- The freelist is exactly the chain of `n` frames `p, …, p+n-1`, seeded
in ascending order: head `p+n-1`, each frame linking to its predecessor. -/
def ChainN (p n : Nat) (s : PhysState) : Prop :=
  s.freelist = (if n = 0 then none else some (p + (n - 1))) ∧
  ∀ i, i < n → s.nextPtr (p + i) = (if i = 0 then none else some (p + (i - 1)))

lemma freeFrame_chain {p k : Nat} {s : PhysState} (h : ChainN p k s) :
    ChainN p (k + 1) (freeFrame (p + k) s) := by
  obtain ⟨h1, h2⟩ := h
  constructor
  · simp [freeFrame]
  · intro i hi
    simp only [freeFrame]
    rcases Nat.lt_or_ge i k with hik | hik
    · rw [Function.update_noteq (by omega)]
      exact h2 i hik
    · have hik' : i = k := by omega
      subst hik'
      rw [Function.update_same, h1]

lemma seedAux_chain (p : Nat) :
    ∀ (m k : Nat) (s : PhysState), ChainN p k s →
      ChainN p (k + m) (seedAux (p + k) m s) := by
  intro m
  induction m with
  | zero => intro k s h; simpa [seedAux] using h
  | succ m ih =>
    intro k s h
    have h' := freeFrame_chain h
    have := ih (k + 1) (freeFrame (p + k) s) h'
    rw [show p + (k + 1) = p + k + 1 by omega] at this
    rw [show k + (m + 1) = k + 1 + m by omega]
    exact this

/-- The PFNs a drain of `n` frames pops: `p+n-1, …, p`. -/
def drainList (p : Nat) : Nat → List Nat
  | 0 => []
  | n + 1 => (p + n) :: drainList p n

/-- `n` consecutive calls of `FrameAllocator::alloc`. -/
def allocFrameN (s : PhysState) : Nat → Option (List Nat × PhysState)
  | 0 => some ([], s)
  | n + 1 => do
    let (pfn, s') ← allocFrame s
    let (ps, s'') ← allocFrameN s' n
    some (pfn :: ps, s'')

lemma drain_of_chain :
    ∀ (n : Nat) (s : PhysState) (p : Nat), ChainN p n s →
      allocFrameN s n = some (drainList p n, { s with freelist := none }) := by
  intro n
  induction n with
  | zero =>
    intro s p h
    obtain ⟨h1, -⟩ := h
    simp only [if_pos rfl] at h1
    obtain ⟨fl, np, c, fr⟩ := s
    simp only at h1
    subst h1
    simp [allocFrameN, drainList]
  | succ n ih =>
    intro s p h
    obtain ⟨h1, h2⟩ := h
    simp only [if_neg (Nat.succ_ne_zero n), Nat.add_sub_cancel] at h1
    have hnext := h2 n (Nat.lt_succ_self n)
    have hchain : ChainN p n { s with freelist := s.nextPtr (p + n) } := by
      refine ⟨by simp [hnext], fun i hi => h2 i (by omega)⟩
    have := ih { s with freelist := s.nextPtr (p + n) } p hchain
    simp [allocFrameN, allocFrame, h1, drainList, this]

lemma drainList_mem {p n : Nat} : ∀ q ∈ drainList p n, p ≤ q ∧ q < p + n := by
  induction n with
  | zero => simp [drainList]
  | succ n ih =>
    intro q hq
    rcases List.mem_cons.mp hq with h | h
    · omega
    · have := ih q h
      omega

lemma drainList_nodup (p n : Nat) : (drainList p n).Nodup := by
  induction n with
  | zero => simp [drainList]
  | succ n ih =>
    refine List.nodup_cons.mpr ⟨fun hmem => ?_, ih⟩
    have := drainList_mem _ hmem
    omega

lemma drainList_length (p n : Nat) : (drainList p n).length = n := by
  induction n with
  | zero => rfl
  | succ n ih => simp [drainList, ih]

/-- C1 (amended): at the `FrameAllocator` level the claim holds: seeding
`n` frames into an empty allocator and draining yields `n` distinct,
page-aligned PAs inside the seeded range, and the next `alloc` panics.
(At the `PhysMemoryManager` level the counterexample shows the claim
fails, because `FrameMap::insert` feeds its radix nodes from the same
freelist.) -/
theorem frame_allocator_seed_then_drain (s : PhysState) (start n : Nat)
    (ha : start % PAGE_SIZE = 0) (hfl : s.freelist = none) :
    ∃ s₁ pfns s₂,
      seedPA start n s = some s₁ ∧
      allocFrameN s₁ n = some (pfns, s₂) ∧
      pfns.length = n ∧
      (pfns.map (· <<< PAGE_SHIFT)).Nodup ∧
      (∀ pa ∈ pfns.map (· <<< PAGE_SHIFT),
        pa % PAGE_SIZE = 0 ∧ start ≤ pa ∧ pa < start + n * PAGE_SIZE) ∧
      allocFrame s₂ = none := by
  have hps : PAGE_SIZE = 4096 := rfl
  set p := start >>> PAGE_SHIFT with hp
  have hpv : p = start / 4096 := by
    rw [hp]
    show start >>> 12 = _
    rw [Nat.shiftRight_eq_div_pow]
  have ha' : start % 4096 = 0 := by rw [hps] at ha; exact ha
  have hstart : start = 4096 * p := by omega
  have hchain0 : ChainN p 0 s := ⟨by simpa using hfl, fun i hi => absurd hi (by omega)⟩
  have hchain := seedAux_chain p n 0 s hchain0
  rw [Nat.add_zero] at hchain
  rw [Nat.zero_add] at hchain
  have hdrain := drain_of_chain n _ p hchain
  refine ⟨_, drainList p n, _, ?_, hdrain, drainList_length p n, ?_, ?_, ?_⟩
  · simp [seedPA, ha]
  · refine (drainList_nodup p n).map ?_
    intro a b hab
    simp only [Nat.shiftLeft_eq] at hab
    norm_num [PAGE_SHIFT] at hab
    omega
  · intro pa hpa
    obtain ⟨q, hq, rfl⟩ := List.mem_map.mp hpa
    obtain ⟨hq1, hq2⟩ := drainList_mem q hq
    have hq12 : q <<< PAGE_SHIFT = q * 4096 := by
      rw [Nat.shiftLeft_eq]
      norm_num [PAGE_SHIFT]
    rw [hq12, hps]
    refine ⟨by omega, by omega, by omega⟩
  · rfl

/-- Witness for C1 (amended): seed three frames at PA `0x40000000` into
the pristine allocator. -/
theorem frame_allocator_seed_then_drain_witness :
    ∃ s₁ pfns s₂,
      seedPA 0x40000000 3 initPhys = some s₁ ∧
      allocFrameN s₁ 3 = some (pfns, s₂) ∧
      pfns.length = 3 ∧
      (pfns.map (· <<< PAGE_SHIFT)).Nodup ∧
      (∀ pa ∈ pfns.map (· <<< PAGE_SHIFT),
        pa % PAGE_SIZE = 0 ∧ 0x40000000 ≤ pa ∧ pa < 0x40000000 + 3 * PAGE_SIZE) ∧
      allocFrame s₂ = none :=
  frame_allocator_seed_then_drain initPhys 0x40000000 3 (by decide) rfl

/-! ## The freelist crate (common/freelist/src/lib.rs)

The intrusive linked list of `FreeBlock` headers is embedded as the list of
`(start, size)` pairs in list order; `start` is the block's address (its
`NonNull<FreeBlock>` pointer). -/

def ALIGN : Nat := 16

/-- A block in a `FreeList`: its address and `FreeBlock.size`. -/
structure FreeBlock where
  start : Nat
  size : Nat
deriving DecidableEq, Repr

/-- `FreeBlock::coalesce` applied to the head of a sublist: merge the head
with its successor if `this_end == next_start`. -/
def coalesceHead : List FreeBlock → List FreeBlock
  | a :: b :: t =>
    if a.start + a.size = b.start then ⟨a.start, a.size + b.size⟩ :: t
    else a :: b :: t
  | l => l

/-- The `FreeList::insert` walk: advance while the current block's address
is not greater than the new block's, link the new block in, then coalesce
the new block with its successor and the direct predecessor with its
successor — exactly one `coalesce` call each, as in the source. -/
def insertGo (nb : FreeBlock) : List FreeBlock → List FreeBlock
  | [] => [nb]
  | b :: rest =>
    if nb.start < b.start then
      coalesceHead (nb :: b :: rest)
    else
      match rest with
      | [] => coalesceHead [b, nb]
      | c :: t =>
        if nb.start < c.start then
          coalesceHead (b :: coalesceHead (nb :: c :: t))
        else
          b :: insertGo nb (c :: t)

/-- `FreeList::insert`: early return on `size == 0`, otherwise the walk.
(The `assert!`s on `ALIGN`-alignment of pointer and size are hypotheses of
the claims.) -/
def insertF (nb : FreeBlock) (l : List FreeBlock) : List FreeBlock :=
  if nb.size = 0 then l else insertGo nb l

/-- `FreeList::carve`: first-fit search; an exact-size block is unlinked, a
larger block is split with the tail staying free. -/
def carve (size : Nat) : List FreeBlock → Option (Nat × List FreeBlock)
  | [] => none
  | b :: rest =>
    if b.size = size then some (b.start, rest)
    else if size < b.size then
      some (b.start, ⟨b.start + size, b.size - size⟩ :: rest)
    else
      (carve size rest).map fun x => (x.1, b :: x.2)

/-- Blocks strictly separated: `a` ends strictly below the start of `b`. -/
def blockLt (a b : FreeBlock) : Prop := a.start + a.size < b.start

/-- The freelist invariant: blocks in strictly separated address order
(hence strictly sorted and maximally coalesced), all of positive size. -/
def WfFL (l : List FreeBlock) : Prop :=
  List.Pairwise blockLt l ∧ ∀ b ∈ l, 0 < b.size

/-- Ownership transfer on `insert` (the block "must not have any other
users"): the inserted range does not overlap any free block (touching is
allowed). -/
def blockDisjoint (a b : FreeBlock) : Prop :=
  a.start + a.size ≤ b.start ∨ b.start + b.size ≤ a.start

/-- Every block carve leaves behind lies inside a block of the input. -/
lemma carve_subsume :
    ∀ (l : List FreeBlock) (size p : Nat) (l' : List FreeBlock),
      carve size l = some (p, l') →
      ∀ x ∈ l', ∃ y ∈ l, y.start ≤ x.start ∧
        x.start + x.size ≤ y.start + y.size := by
  intro l
  induction l with
  | nil => intro size p l' h; simp [carve] at h
  | cons b rest ih =>
    intro size p l' h
    simp only [carve] at h
    split at h
    · simp only [Option.some.injEq, Prod.mk.injEq] at h
      obtain ⟨-, rfl⟩ := h
      intro x hx
      exact ⟨x, List.mem_cons_of_mem _ hx, le_refl _, le_refl _⟩
    · split at h
      · rename_i hne hlt
        simp only [Option.some.injEq, Prod.mk.injEq] at h
        obtain ⟨-, rfl⟩ := h
        intro x hx
        rcases List.mem_cons.mp hx with rfl | hx
        · refine ⟨b, List.mem_cons_self _ _, ?_, ?_⟩
          · show b.start ≤ b.start + size
            omega
          · show b.start + size + (b.size - size) ≤ b.start + b.size
            omega
        · exact ⟨x, List.mem_cons_of_mem _ hx, le_refl _, le_refl _⟩
      · rcases hc : carve size rest with _ | ⟨q, l''⟩
        · rw [hc] at h
          exact Option.noConfusion h
        · rw [hc] at h
          simp only [Option.map_some', Option.some.injEq, Prod.mk.injEq] at h
          obtain ⟨-, rfl⟩ := h
          intro x hx
          rcases List.mem_cons.mp hx with rfl | hx
          · exact ⟨x, List.mem_cons_self _ _, le_refl _, le_refl _⟩
          · obtain ⟨y, hy, hle⟩ := ih size q l'' hc x hx
            exact ⟨y, List.mem_cons_of_mem _ hy, hle⟩

/-- `carve` preserves the freelist invariant. -/
lemma carve_wf :
    ∀ (l : List FreeBlock) (size p : Nat) (l' : List FreeBlock),
      WfFL l → carve size l = some (p, l') → WfFL l' := by
  intro l
  induction l with
  | nil => intro size p l' _ h; simp [carve] at h
  | cons b rest ih =>
    intro size p l' hwf h
    obtain ⟨hpair, hsz⟩ := hwf
    rw [List.pairwise_cons] at hpair
    simp only [carve] at h
    split at h
    · simp only [Option.some.injEq, Prod.mk.injEq] at h
      obtain ⟨-, rfl⟩ := h
      exact ⟨hpair.2, fun x hx => hsz x (List.mem_cons_of_mem _ hx)⟩
    · split at h
      · rename_i hne hlt
        simp only [Option.some.injEq, Prod.mk.injEq] at h
        obtain ⟨-, rfl⟩ := h
        constructor
        · rw [List.pairwise_cons]
          refine ⟨fun c hc => ?_, hpair.2⟩
          have := hpair.1 c hc
          simp only [blockLt] at this ⊢
          omega
        · intro x hx
          rcases List.mem_cons.mp hx with rfl | hx
          · simp
            omega
          · exact hsz x (List.mem_cons_of_mem _ hx)
      · rcases hc : carve size rest with _ | ⟨q, l''⟩
        · rw [hc] at h
          exact Option.noConfusion h
        · rw [hc] at h
          simp only [Option.map_some', Option.some.injEq, Prod.mk.injEq] at h
          obtain ⟨-, rfl⟩ := h
          have hwf'' := ih size q l''
            ⟨hpair.2, fun x hx => hsz x (List.mem_cons_of_mem _ hx)⟩ hc
          constructor
          · rw [List.pairwise_cons]
            refine ⟨fun x hx => ?_, hwf''.1⟩
            obtain ⟨y, hy, hyx, -⟩ := carve_subsume rest size q l'' hc x hx
            have := hpair.1 y hy
            simp only [blockLt] at this ⊢
            omega
          · intro x hx
            rcases List.mem_cons.mp hx with rfl | hx
            · exact hsz x (List.mem_cons_self _ _)
            · exact hwf''.2 x hx

lemma coalesceHead_cons_cons (a b : FreeBlock) (t : List FreeBlock) :
    coalesceHead (a :: b :: t) =
      if a.start + a.size = b.start then ⟨a.start, a.size + b.size⟩ :: t
      else a :: b :: t := rfl

lemma coalesceHead_single (a : FreeBlock) : coalesceHead [a] = [a] := rfl

lemma insertGo_nil (nb : FreeBlock) : insertGo nb [] = [nb] := rfl

lemma insertGo_single (nb b : FreeBlock) :
    insertGo nb [b] =
      if nb.start < b.start then coalesceHead [nb, b]
      else coalesceHead [b, nb] := rfl

lemma insertGo_cons_cons (nb b c : FreeBlock) (t : List FreeBlock) :
    insertGo nb (b :: c :: t) =
      if nb.start < b.start then coalesceHead (nb :: b :: c :: t)
      else if nb.start < c.start then
        coalesceHead (b :: coalesceHead (nb :: c :: t))
      else b :: insertGo nb (c :: t) := rfl

/-- Every block after an insert walk starts where the new block or one of
the old blocks started (coalescing keeps the first block's start). -/
lemma insertGo_starts (nb : FreeBlock) :
    ∀ (l : List FreeBlock), ∀ x ∈ insertGo nb l,
      x.start = nb.start ∨ ∃ y ∈ l, x.start = y.start := by
  intro l
  induction l with
  | nil =>
    intro x hx
    rw [insertGo_nil, List.mem_singleton] at hx
    exact Or.inl (by rw [hx])
  | cons b rest ih =>
    cases rest with
    | nil =>
      intro x hx
      rw [insertGo_single] at hx
      split at hx
      · rw [coalesceHead_cons_cons] at hx
        split at hx
        · rw [List.mem_singleton] at hx
          exact Or.inl (by rw [hx])
        · simp only [List.mem_cons, List.not_mem_nil, or_false] at hx
          rcases hx with hx | hx
          · exact Or.inl (by rw [hx])
          · exact Or.inr ⟨b, List.mem_cons_self _ _, by rw [hx]⟩
      · rw [coalesceHead_cons_cons] at hx
        split at hx
        · rw [List.mem_singleton] at hx
          exact Or.inr ⟨b, List.mem_cons_self _ _, by rw [hx]⟩
        · simp only [List.mem_cons, List.not_mem_nil, or_false] at hx
          rcases hx with hx | hx
          · exact Or.inr ⟨b, List.mem_cons_self _ _, by rw [hx]⟩
          · exact Or.inl (by rw [hx])
    | cons c t =>
      intro x hx
      rw [insertGo_cons_cons] at hx
      split at hx
      · -- nb inserted before b
        rw [coalesceHead_cons_cons] at hx
        split at hx
        · simp only [List.mem_cons] at hx
          rcases hx with hx | hx | hx
          · exact Or.inl (by rw [hx])
          · exact Or.inr ⟨c, by simp, by rw [hx]⟩
          · exact Or.inr ⟨x, by simp [hx], rfl⟩
        · simp only [List.mem_cons] at hx
          rcases hx with hx | hx | hx | hx
          · exact Or.inl (by rw [hx])
          · exact Or.inr ⟨b, by simp, by rw [hx]⟩
          · exact Or.inr ⟨c, by simp, by rw [hx]⟩
          · exact Or.inr ⟨x, by simp [hx], rfl⟩
      · split at hx
        · -- nb inserted between b and c
          rw [coalesceHead_cons_cons] at hx
          split at hx
          · -- nb merged with c
            rw [coalesceHead_cons_cons] at hx
            split at hx
            · simp only [List.mem_cons] at hx
              rcases hx with hx | hx
              · exact Or.inr ⟨b, by simp, by rw [hx]⟩
              · exact Or.inr ⟨x, by simp [hx], rfl⟩
            · simp only [List.mem_cons] at hx
              rcases hx with hx | hx | hx
              · exact Or.inr ⟨b, by simp, by rw [hx]⟩
              · exact Or.inl (by rw [hx])
              · exact Or.inr ⟨x, by simp [hx], rfl⟩
          · -- nb not merged with c
            rw [coalesceHead_cons_cons] at hx
            split at hx
            · simp only [List.mem_cons] at hx
              rcases hx with hx | hx | hx
              · exact Or.inr ⟨b, by simp, by rw [hx]⟩
              · exact Or.inr ⟨c, by simp, by rw [hx]⟩
              · exact Or.inr ⟨x, by simp [hx], rfl⟩
            · simp only [List.mem_cons] at hx
              rcases hx with hx | hx | hx | hx
              · exact Or.inr ⟨b, by simp, by rw [hx]⟩
              · exact Or.inl (by rw [hx])
              · exact Or.inr ⟨c, by simp, by rw [hx]⟩
              · exact Or.inr ⟨x, by simp [hx], rfl⟩
        · -- keep walking
          simp only [List.mem_cons] at hx
          rcases hx with hx | hx
          · exact Or.inr ⟨b, by simp, by rw [hx]⟩
          · rcases ih x hx with h | ⟨y, hy, hxy⟩
            · exact Or.inl h
            · exact Or.inr ⟨y, List.mem_cons_of_mem _ hy, hxy⟩

/-- `insert`'s walk preserves the freelist invariant when the new block has
positive size and does not overlap any existing block. -/
lemma insertGo_wf (nb : FreeBlock) (hnb : 0 < nb.size) :
    ∀ (l : List FreeBlock), WfFL l → (∀ y ∈ l, blockDisjoint nb y) →
      WfFL (insertGo nb l) := by
  intro l
  induction l with
  | nil =>
    intro _ _
    rw [insertGo_nil]
    exact ⟨List.pairwise_singleton _ _, by simpa using hnb⟩
  | cons b rest ih =>
    cases rest with
    | nil =>
      intro hwf hdis
      have hszb : 0 < b.size := hwf.2 b (List.mem_cons_self _ _)
      have hdb := hdis b (List.mem_cons_self _ _)
      simp only [blockDisjoint] at hdb
      rw [insertGo_single]
      split
      · rename_i hlt
        have hle : nb.start + nb.size ≤ b.start := by omega
        rw [coalesceHead_cons_cons]
        split
        · exact ⟨List.pairwise_singleton _ _, by simp; omega⟩
        · rename_i hne
          refine ⟨List.pairwise_cons.mpr ⟨fun y hy => ?_, List.pairwise_singleton _ _⟩, ?_⟩
          · rw [List.mem_singleton] at hy
            subst hy
            show nb.start + nb.size < y.start
            omega
          · intro y hy
            simp only [List.mem_cons, List.not_mem_nil, or_false] at hy
            rcases hy with rfl | rfl
            · exact hnb
            · exact hszb
      · rename_i hge
        have hle : b.start + b.size ≤ nb.start := by omega
        rw [coalesceHead_cons_cons]
        split
        · exact ⟨List.pairwise_singleton _ _, by simp; omega⟩
        · rename_i hne
          refine ⟨List.pairwise_cons.mpr ⟨fun y hy => ?_, List.pairwise_singleton _ _⟩, ?_⟩
          · rw [List.mem_singleton] at hy
            subst hy
            show b.start + b.size < y.start
            omega
          · intro y hy
            simp only [List.mem_cons, List.not_mem_nil, or_false] at hy
            rcases hy with rfl | rfl
            · exact hszb
            · exact hnb
    | cons c t =>
      intro hwf hdis
      obtain ⟨hpair, hsz⟩ := hwf
      rw [List.pairwise_cons] at hpair
      obtain ⟨hbrest, hcpair⟩ := hpair
      rw [List.pairwise_cons] at hcpair
      obtain ⟨hct, htpair⟩ := hcpair
      have hbc : blockLt b c := hbrest c (List.mem_cons_self _ _)
      have hbt : ∀ y ∈ t, blockLt b y :=
        fun y hy => hbrest y (List.mem_cons_of_mem _ hy)
      have hszb : 0 < b.size := hsz b (List.mem_cons_self _ _)
      have hszc : 0 < c.size := hsz c (by simp)
      have hszt : ∀ y ∈ t, 0 < y.size := fun y hy => hsz y (by simp [hy])
      have hdb := hdis b (List.mem_cons_self _ _)
      have hdc := hdis c (by simp)
      have hdt : ∀ y ∈ t, blockDisjoint nb y := fun y hy => hdis y (by simp [hy])
      simp only [blockDisjoint] at hdb hdc
      simp only [blockLt] at hbc
      rw [insertGo_cons_cons]
      split
      · -- nb goes before b
        rename_i hlt
        have hle : nb.start + nb.size ≤ b.start := by omega
        rw [coalesceHead_cons_cons]
        split
        · rename_i htouch
          refine ⟨List.pairwise_cons.mpr ⟨fun y hy => ?_, List.pairwise_cons.mpr ⟨hct, htpair⟩⟩, ?_⟩
          · simp only [List.mem_cons] at hy
            show nb.start + (nb.size + b.size) < y.start
            rcases hy with rfl | hy
            · omega
            · have := hbt y hy
              simp only [blockLt] at this
              omega
          · intro y hy
            simp only [List.mem_cons] at hy
            rcases hy with rfl | rfl | hy
            · simp
              omega
            · exact hszc
            · exact hszt y hy
        · rename_i hne
          refine ⟨List.pairwise_cons.mpr ⟨fun y hy => ?_,
            List.pairwise_cons.mpr ⟨fun y hy => ?_, List.pairwise_cons.mpr ⟨hct, htpair⟩⟩⟩, ?_⟩
          · simp only [List.mem_cons] at hy
            show nb.start + nb.size < y.start
            rcases hy with rfl | rfl | hy
            · omega
            · omega
            · have := hbt y hy
              simp only [blockLt] at this
              omega
          · simp only [List.mem_cons] at hy
            show b.start + b.size < y.start
            rcases hy with rfl | hy
            · exact hbc
            · have := hbt y hy
              simp only [blockLt] at this
              omega
          · intro y hy
            simp only [List.mem_cons] at hy
            rcases hy with rfl | rfl | rfl | hy
            · exact hnb
            · exact hszb
            · exact hszc
            · exact hszt y hy
      · split
        · -- nb goes between b and c
          rename_i hgeb hltc
          have hle1 : b.start + b.size ≤ nb.start := by omega
          have hle2 : nb.start + nb.size ≤ c.start := by omega
          rw [coalesceHead_cons_cons]
          split
          · -- nb merged with c
            rename_i htc
            rw [coalesceHead_cons_cons]
            split
            · rename_i htb
              have htb' : b.start + b.size = nb.start := htb
              refine ⟨List.pairwise_cons.mpr ⟨fun y hy => ?_, htpair⟩, ?_⟩
              · show b.start + (b.size + (nb.size + c.size)) < y.start
                have := hct y hy
                simp only [blockLt] at this
                omega
              · intro y hy
                simp only [List.mem_cons] at hy
                rcases hy with rfl | hy
                · simp
                  omega
                · exact hszt y hy
            · rename_i htb
              have htb' : ¬ b.start + b.size = nb.start := htb
              refine ⟨List.pairwise_cons.mpr ⟨fun y hy => ?_,
                List.pairwise_cons.mpr ⟨fun y hy => ?_, htpair⟩⟩, ?_⟩
              · simp only [List.mem_cons] at hy
                show b.start + b.size < y.start
                rcases hy with rfl | hy
                · show b.start + b.size < nb.start
                  omega
                · have := hct y hy
                  simp only [blockLt] at this
                  omega
              · show nb.start + (nb.size + c.size) < y.start
                have := hct y hy
                simp only [blockLt] at this
                omega
              · intro y hy
                simp only [List.mem_cons] at hy
                rcases hy with rfl | rfl | hy
                · exact hszb
                · simp
                  omega
                · exact hszt y hy
          · -- nb not merged with c
            rename_i htc
            rw [coalesceHead_cons_cons]
            split
            · rename_i htb
              refine ⟨List.pairwise_cons.mpr ⟨fun y hy => ?_,
                List.pairwise_cons.mpr ⟨hct, htpair⟩⟩, ?_⟩
              · simp only [List.mem_cons] at hy
                show b.start + (b.size + nb.size) < y.start
                rcases hy with rfl | hy
                · omega
                · have := hct y hy
                  simp only [blockLt] at this
                  omega
              · intro y hy
                simp only [List.mem_cons] at hy
                rcases hy with rfl | rfl | hy
                · simp
                  omega
                · exact hszc
                · exact hszt y hy
            · rename_i htb
              refine ⟨List.pairwise_cons.mpr ⟨fun y hy => ?_,
                List.pairwise_cons.mpr ⟨fun y hy => ?_,
                  List.pairwise_cons.mpr ⟨hct, htpair⟩⟩⟩, ?_⟩
              · simp only [List.mem_cons] at hy
                show b.start + b.size < y.start
                rcases hy with rfl | rfl | hy
                · omega
                · omega
                · have := hct y hy
                  simp only [blockLt] at this
                  omega
              · simp only [List.mem_cons] at hy
                show nb.start + nb.size < y.start
                rcases hy with rfl | hy
                · omega
                · have := hct y hy
                  simp only [blockLt] at this
                  omega
              · intro y hy
                simp only [List.mem_cons] at hy
                rcases hy with rfl | rfl | rfl | hy
                · exact hszb
                · exact hnb
                · exact hszc
                · exact hszt y hy
        · -- keep walking past b
          rename_i hgeb hgec
          have hwf' : WfFL (insertGo nb (c :: t)) :=
            ih ⟨List.pairwise_cons.mpr ⟨hct, htpair⟩, fun y hy => hsz y (by simp [hy])⟩
              (fun y hy => hdis y (by simp [hy]))
          refine ⟨List.pairwise_cons.mpr ⟨fun y hy => ?_, hwf'.1⟩, ?_⟩
          · rcases insertGo_starts nb (c :: t) y hy with h | ⟨z, hz, hyz⟩
            · show b.start + b.size < y.start
              rw [h]
              omega
            · show b.start + b.size < y.start
              rw [hyz]
              simp only [List.mem_cons] at hz
              rcases hz with rfl | hz
              · exact hbc
              · have := hbt z hz
                simp only [blockLt] at this
                omega
          · intro y hy
            simp only [List.mem_cons] at hy
            rcases hy with rfl | hy
            · exact hszb
            · exact hwf'.2 y hy

/-- `FreeList::insert` preserves the freelist invariant. -/
lemma insertF_wf {nb : FreeBlock} {l : List FreeBlock} (hwf : WfFL l)
    (hdis : ∀ y ∈ l, blockDisjoint nb y) : WfFL (insertF nb l) := by
  unfold insertF
  split
  · exact hwf
  · exact insertGo_wf nb (by omega) l hwf hdis

/-- The insert walk leaves some block at least as large as the new one
(the new block itself, or a block it was coalesced into). -/
lemma insertGo_exists_ge (nb : FreeBlock) :
    ∀ (l : List FreeBlock), ∃ x ∈ insertGo nb l, nb.size ≤ x.size := by
  intro l
  induction l with
  | nil => exact ⟨nb, by simp [insertGo_nil], le_refl _⟩
  | cons b rest ih =>
    cases rest with
    | nil =>
      rw [insertGo_single]
      split
      · rw [coalesceHead_cons_cons]
        split
        · exact ⟨_, List.mem_singleton.mpr rfl, by simp⟩
        · exact ⟨nb, by simp, le_refl _⟩
      · rw [coalesceHead_cons_cons]
        split
        · exact ⟨_, List.mem_singleton.mpr rfl, by simp⟩
        · exact ⟨nb, by simp, le_refl _⟩
    | cons c t =>
      rw [insertGo_cons_cons]
      split
      · rw [coalesceHead_cons_cons]
        split
        · exact ⟨_, List.mem_cons_self _ _, by simp⟩
        · exact ⟨nb, List.mem_cons_self _ _, le_refl _⟩
      · split
        · rw [coalesceHead_cons_cons]
          split
          · rw [coalesceHead_cons_cons]
            split
            · exact ⟨_, List.mem_cons_self _ _, by simp; omega⟩
            · exact ⟨⟨nb.start, nb.size + c.size⟩, by simp, by simp⟩
          · rw [coalesceHead_cons_cons]
            split
            · exact ⟨_, List.mem_cons_self _ _, by simp⟩
            · exact ⟨nb, by simp, le_refl _⟩
        · obtain ⟨x, hx, hge⟩ := ih
          exact ⟨x, List.mem_cons_of_mem _ hx, hge⟩

/-- First-fit search succeeds whenever some block is large enough. -/
lemma carve_isSome {size : Nat} :
    ∀ (l : List FreeBlock), (∃ x ∈ l, size ≤ x.size) →
      (carve size l).isSome := by
  intro l
  induction l with
  | nil => intro h; simp at h
  | cons b rest ih =>
    intro ⟨x, hx, hge⟩
    simp only [carve]
    split
    · simp
    · split
      · simp
      · rename_i hne hnlt
        simp only [List.mem_cons] at hx
        rcases hx with rfl | hx
        · omega
        · have := ih ⟨x, hx, hge⟩
          rcases ho : carve size rest with _ | y
          · rw [ho] at this; simp at this
          · simp [ho]

/-! ### Operation sequences on a freelist (for C6) -/

inductive FLOp where
  | insert (ptr size : Nat)
  | carve (size : Nat)

/-- One `FreeList` operation; a `carve` miss leaves the list unchanged. -/
def applyFL (l : List FreeBlock) : FLOp → List FreeBlock
  | .insert p sz => insertF ⟨p, sz⟩ l
  | .carve sz =>
    match carve sz l with
    | some x => x.2
    | none => l

/-- A run of operations starting from the empty freelist
(`FreeList::new`). -/
def runFL (ops : List FLOp) : List FreeBlock := ops.foldl applyFL []

/-- Validity of an operation sequence against the current freelist: 16-byte
aligned pointers, sizes multiples of 16, and (per `insert`'s ownership
contract) inserted blocks do not overlap current free blocks. -/
def ValidFLOps : List FreeBlock → List FLOp → Prop
  | _, [] => True
  | l, .insert p sz :: ops =>
      (ALIGN ∣ p ∧ ALIGN ∣ sz ∧ ∀ y ∈ l, blockDisjoint ⟨p, sz⟩ y) ∧
      ValidFLOps (applyFL l (.insert p sz)) ops
  | l, .carve sz :: ops =>
      ALIGN ∣ sz ∧ ValidFLOps (applyFL l (.carve sz)) ops

lemma runFL_wf :
    ∀ (ops : List FLOp) (l : List FreeBlock), WfFL l → ValidFLOps l ops →
      WfFL (ops.foldl applyFL l) := by
  intro ops
  induction ops with
  | nil => intro l hwf _; exact hwf
  | cons op ops ih =>
    intro l hwf hv
    cases op with
    | insert p sz =>
      obtain ⟨⟨-, -, hdis⟩, hv'⟩ := hv
      exact ih _ (insertF_wf hwf hdis) hv'
    | carve sz =>
      obtain ⟨-, hv'⟩ := hv
      refine ih _ ?_ hv'
      rcases hc : carve sz l with _ | x
      · simpa [applyFL, hc] using hwf
      · have := carve_wf l sz x.1 x.2 hwf (by rw [hc])
        simpa [applyFL, hc] using this

/-- C6: after any valid sequence of `FreeList::insert` and
`FreeList::carve` operations (16-byte-aligned pointers, sizes multiples of
16, inserted blocks owned by the caller), the freelist is sorted strictly
by block start address and maximally coalesced: no two adjacent blocks
touch. -/
theorem freelist_sorted_coalesced (ops : List FLOp)
    (h : ValidFLOps [] ops) :
    List.Pairwise (fun a b => a.start < b.start) (runFL ops) ∧
    List.Chain' (fun a b => a.start + a.size ≠ b.start) (runFL ops) := by
  have hwf : WfFL (runFL ops) :=
    runFL_wf ops [] ⟨List.Pairwise.nil, fun b hb => absurd hb (List.not_mem_nil b)⟩ h
  constructor
  · exact hwf.1.imp (fun hab => lt_of_le_of_lt (Nat.le_add_right _ _) hab)
  · exact (hwf.1.chain').imp (fun a b hab => Nat.ne_of_lt hab)

/-- Witness for C6: the spec's coalescing scenario — insert
`[V+0x1000, V+0x2000)` then `[V, V+0x1000)` at `V = 0x10000`. -/
theorem freelist_sorted_coalesced_witness :
    List.Pairwise (fun a b => a.start < b.start)
      (runFL [.insert 0x11000 0x1000, .insert 0x10000 0x1000]) ∧
    List.Chain' (fun a b => a.start + a.size ≠ b.start)
      (runFL [.insert 0x11000 0x1000, .insert 0x10000 0x1000]) :=
  freelist_sorted_coalesced _ (by
    refine ⟨⟨by decide, by decide, by simp⟩, ⟨by decide, by decide, ?_⟩, trivial⟩
    intro y hy
    have hyv : y = ⟨0x11000, 0x1000⟩ := by
      simpa [applyFL, insertF, insertGo_nil] using hy
    rw [hyv]
    exact Or.inl (by norm_num))

/-! ## Kernel heap allocator (kernel/src/memory/heap.rs)

`HeapAllocator` holds the freelist and the heap break. `grow` additionally
maps fresh frames page-by-page through `virt::map_data_page` (modelled in
the physical/VMM sections; it does not change the heap allocator state). -/

/-- `round_up_align`: `(x + a) & !a` with `a = ALIGN - 1` (freelist crate). -/
def round_up_align (x : Nat) : Nat := (x + (ALIGN - 1)) &&& not64 (ALIGN - 1)

/-- `round_up_page`: `(x + a) & !a` with `a = PAGE_SIZE - 1` (heap.rs). -/
def round_up_page (x : Nat) : Nat :=
  (x + (PAGE_SIZE - 1)) &&& not64 (PAGE_SIZE - 1)

/-- `y & !(2^k - 1)` clears the low `k` bits: it is `y - y % 2^k`. -/
lemma and_not64_two_pow_sub_one (y k : Nat) (hk : k ≤ 64) (hy : y < 2 ^ 64) :
    y &&& not64 (2 ^ k - 1) = y - y % 2 ^ k := by
  have hmd := Nat.mod_add_div y (2 ^ k)
  have hrep : y - y % 2 ^ k = (y >>> k) <<< k := by
    rw [Nat.shiftRight_eq_div_pow, Nat.shiftLeft_eq]
    have h2 : 2 ^ k * (y / 2 ^ k) = y / 2 ^ k * 2 ^ k := Nat.mul_comm _ _
    omega
  rw [hrep]
  apply Nat.eq_of_testBit_eq
  intro i
  have hN : (0xffffffffffffffff : Nat) = 2 ^ 64 - 1 := by norm_num
  simp only [not64, hN, Nat.testBit_and, Nat.testBit_xor,
    Nat.testBit_two_pow_sub_one, Nat.testBit_shiftLeft, Nat.testBit_shiftRight]
  rcases Nat.lt_or_ge i k with hik | hik
  · have h1 : decide (i < 64) = true := by simp; omega
    have h2 : decide (i < k) = true := by simpa using hik
    have h3 : decide (k ≤ i) = false := by simp; omega
    simp [h1, h2, h3]
  · have h3 : decide (k ≤ i) = true := by simpa using hik
    have h4 : k + (i - k) = i := by omega
    rcases Nat.lt_or_ge i 64 with hi64 | hi64
    · have h1 : decide (i < 64) = true := by simpa using hi64
      have h2 : decide (i < k) = false := by simp; omega
      simp [h1, h2, h3, h4]
    · have hyb : y.testBit i = false :=
        Nat.testBit_lt_two_pow
          (lt_of_lt_of_le hy (Nat.pow_le_pow_right (by norm_num) hi64))
      have h1 : decide (i < 64) = false := by simp; omega
      simp [h1, h3, h4, hyb]

lemma round_up_align_eq (x : Nat) (hx : x + 15 < 2 ^ 64) :
    round_up_align x = (x + 15) - (x + 15) % 16 := by
  have h15 : (ALIGN - 1 : Nat) = 2 ^ 4 - 1 := by decide
  rw [round_up_align, h15, and_not64_two_pow_sub_one _ 4 (by omega) (by norm_num; omega)]
  norm_num

lemma round_up_page_eq (x : Nat) (hx : x + 4095 < 2 ^ 64) :
    round_up_page x = (x + 4095) - (x + 4095) % 4096 := by
  have h4095 : (PAGE_SIZE - 1 : Nat) = 2 ^ 12 - 1 := by decide
  rw [round_up_page, h4095, and_not64_two_pow_sub_one _ 12 (by omega) (by norm_num; omega)]
  norm_num

/-- The heap allocator state: the freelist and the heap break. -/
structure HeapState where
  freelist : List FreeBlock
  heapBreak : Nat

/-- `HeapAllocator::new`: empty freelist, break at `KHEAP_START`. -/
def initHeap : HeapState := { freelist := [], heapBreak := KHEAP_START }

/-- `HeapAllocator::grow`: round the request to pages, refuse if the new
break would exceed `KHEAP_START + KHEAP_SIZE` (`Err(())`, modelled as
`none`), otherwise map the pages (via `map_data_page`, which does not touch
this state), insert the new region as one free block and advance the
break. -/
def grow (st : HeapState) (size : Nat) : Option HeapState :=
  let size' := round_up_page size
  let newBreak := st.heapBreak + size'
  if newBreak > KHEAP_START + KHEAP_SIZE then none
  else some { freelist := insertF ⟨st.heapBreak, size'⟩ st.freelist,
              heapBreak := newBreak }

/-- `HeapAllocator::alloc`: round to 16, first-fit carve; on a miss grow
and carve again; on growth failure return null (`none`) with the state
unchanged. -/
def hAlloc (st : HeapState) (size : Nat) : Option Nat × HeapState :=
  let size16 := round_up_align size
  match carve size16 st.freelist with
  | some x => (some x.1, { st with freelist := x.2 })
  | none =>
    match grow st size16 with
    | none => (none, st)
    | some st' =>
      match carve size16 st'.freelist with
      | some x => (some x.1, { st' with freelist := x.2 })
      | none => (none, st')

/-- `HeapAllocator::free`: round to 16 and insert (coalescing); physical
frames are not reclaimed. -/
def hFree (st : HeapState) (ptr size : Nat) : HeapState :=
  { st with freelist := insertF ⟨ptr, round_up_align size⟩ st.freelist }

inductive HeapOp where
  | alloc (size : Nat)
  | free (ptr size : Nat)

def heapOpSize : HeapOp → Nat
  | .alloc sz => sz
  | .free _ sz => sz

def applyHeap (st : HeapState) : HeapOp → HeapState
  | .alloc sz => (hAlloc st sz).2
  | .free p sz => hFree st p sz

/-- The break invariant of the claim: the break moved from `KHEAP_START`
in page multiples and never exceeds `KHEAP_START + KHEAP_SIZE`. -/
def HeapInv (st : HeapState) : Prop :=
  KHEAP_START ≤ st.heapBreak ∧
  st.heapBreak ≤ KHEAP_START + KHEAP_SIZE ∧
  (st.heapBreak - KHEAP_START) % PAGE_SIZE = 0

lemma applyHeap_inv (st : HeapState) (op : HeapOp)
    (hsz : heapOpSize op + 4110 < 2 ^ 64) (hinv : HeapInv st) :
    HeapInv (applyHeap st op) := by
  obtain ⟨h1, h2, h3⟩ := hinv
  cases op with
  | free p sz => exact ⟨h1, h2, h3⟩
  | alloc sz =>
    simp only [heapOpSize] at hsz
    show HeapInv (hAlloc st sz).2
    simp only [hAlloc]
    rcases hc : carve (round_up_align sz) st.freelist with _ | x
    · simp only
      rcases hg : grow st (round_up_align sz) with _ | st'
      · exact ⟨h1, h2, h3⟩
      · have hup : round_up_align sz % 16 = 0 := by
          rw [round_up_align_eq _ (by omega)]
          omega
        have hua : round_up_align sz ≤ sz + 15 := by
          rw [round_up_align_eq _ (by omega)]
          omega
        have hpage : round_up_page (round_up_align sz) % 4096 = 0 := by
          rw [round_up_page_eq _ (by omega)]
          omega
        simp only [grow] at hg
        split at hg
        · exact absurd hg (by simp)
        · rename_i hle
          simp only [Option.some.injEq] at hg
          subst hg
          rcases hc2 : carve (round_up_align sz)
              (insertF ⟨st.heapBreak, round_up_page (round_up_align sz)⟩ st.freelist)
            with _ | y
          · simp only [hc2]
            refine ⟨by simp; omega, by simpa using hle, ?_⟩
            show (st.heapBreak + round_up_page (round_up_align sz) -
              KHEAP_START) % PAGE_SIZE = 0
            have hps : PAGE_SIZE = 4096 := rfl
            rw [hps] at h3 ⊢
            omega
          · simp only [hc2]
            refine ⟨by simp; omega, by simpa using hle, ?_⟩
            show (st.heapBreak + round_up_page (round_up_align sz) -
              KHEAP_START) % PAGE_SIZE = 0
            have hps : PAGE_SIZE = 4096 := rfl
            rw [hps] at h3 ⊢
            omega
    · exact ⟨h1, h2, h3⟩

lemma foldl_heapInv (ops : List HeapOp) :
    ∀ st, HeapInv st → (∀ op ∈ ops, heapOpSize op + 4110 < 2 ^ 64) →
      HeapInv (ops.foldl applyHeap st) := by
  induction ops with
  | nil => intro st h _; exact h
  | cons op ops ih =>
    intro st h hb
    exact ih _ (applyHeap_inv st op (hb op (by simp)) h)
      (fun o ho => hb o (by simp [ho]))

/-- C7: over any sequence of heap operations the break advances from
`KHEAP_START` in page multiples and never exceeds
`KHEAP_START + KHEAP_SIZE`; an allocation returns null exactly when the
first-fit carve misses and the growth needed would push the break past the
limit, and a null return leaves break and freelist unchanged.
(`GlobalAlloc` forbids zero-size requests; sizes fit in `usize`.) -/
theorem heap_growth_bound (ops : List HeapOp)
    (hops : ∀ op ∈ ops, heapOpSize op + 4110 < 2 ^ 64)
    (size : Nat) (hszb : size + 4110 < 2 ^ 64) (hpos : 0 < size)
    (st : HeapState) :
    HeapInv (ops.foldl applyHeap initHeap) ∧
    ((hAlloc st size).1 = none ↔
      carve (round_up_align size) st.freelist = none ∧
      KHEAP_START + KHEAP_SIZE <
        st.heapBreak + round_up_page (round_up_align size)) ∧
    ((hAlloc st size).1 = none → (hAlloc st size).2 = st) := by
  have hinit : HeapInv initHeap :=
    ⟨le_refl _, Nat.le_add_right _ _, by simp [initHeap]⟩
  refine ⟨foldl_heapInv ops initHeap hinit hops, ?_⟩
  have h16 : 16 ≤ round_up_align size := by
    rw [round_up_align_eq _ (by omega)]
    omega
  have hua : round_up_align size ≤ size + 15 := by
    rw [round_up_align_eq _ (by omega)]
    omega
  have hle : round_up_align size ≤ round_up_page (round_up_align size) := by
    rw [round_up_page_eq _ (by omega)]
    omega
  simp only [hAlloc]
  rcases hc : carve (round_up_align size) st.freelist with _ | x
  · simp only
    rcases hg : grow st (round_up_align size) with _ | st'
    · simp only [grow] at hg
      split at hg
      · rename_i hgt
        exact ⟨by simp [hgt], fun _ => rfl⟩
      · exact absurd hg (by simp)
    · simp only [grow] at hg
      split at hg
      · exact absurd hg (by simp)
      · rename_i hngt
        simp only [Option.some.injEq] at hg
        subst hg
        dsimp only
        have hspos : ¬ round_up_page (round_up_align size) = 0 := by omega
        obtain ⟨x, hx, hgex⟩ :=
          insertGo_exists_ge
            ⟨st.heapBreak, round_up_page (round_up_align size)⟩ st.freelist
        rcases hc2 : carve (round_up_align size)
            (insertF ⟨st.heapBreak, round_up_page (round_up_align size)⟩
              st.freelist) with _ | y
        · exfalso
          have hmem : x ∈ insertF
              ⟨st.heapBreak, round_up_page (round_up_align size)⟩ st.freelist := by
            simpa [insertF, hspos] using hx
          have hgex' : round_up_page (round_up_align size) ≤ x.size := hgex
          have hsome := @carve_isSome (round_up_align size)
            (insertF ⟨st.heapBreak, round_up_page (round_up_align size)⟩
              st.freelist) ⟨x, hmem, by omega⟩
          rw [hc2] at hsome
          simp at hsome
        · simp only [hc2]
          constructor
          · simp
            omega
          · intro hn
            exact absurd hn (by simp)
  · simp only
    constructor
    · simp [hc]
    · intro hn
      exact absurd hn (by simp)

/-- Witness for C7: the fresh heap, with an allocation request of
`KHEAP_SIZE + 1` bytes. -/
theorem heap_growth_bound_witness :
    HeapInv (([] : List HeapOp).foldl applyHeap initHeap) ∧
    ((hAlloc initHeap (KHEAP_SIZE + 1)).1 = none ↔
      carve (round_up_align (KHEAP_SIZE + 1)) initHeap.freelist = none ∧
      KHEAP_START + KHEAP_SIZE <
        initHeap.heapBreak + round_up_page (round_up_align (KHEAP_SIZE + 1))) ∧
    ((hAlloc initHeap (KHEAP_SIZE + 1)).1 = none →
      (hAlloc initHeap (KHEAP_SIZE + 1)).2 = initHeap) :=
  heap_growth_bound [] (by simp) (KHEAP_SIZE + 1) (by decide) (by decide)
    initHeap

/-! ## The print syscall (kernel/src/exception/syscall.rs)

`print` reads `x0` (user pointer) and `x1` (length) from the exception
frame, copies the bytes through `copy_from_user`, validates UTF-8 with
`str::from_utf8(..).unwrap()` and logs the string. `str::from_utf8` is a
Rust standard-library function; its acceptance predicate enters the model
as the parameter `utf8Ok`. User memory is the byte function `mem`. -/

/-- `copy_from_user`: `checked_add` panics (`none`) on u64 overflow,
`assert!(end < KERNEL_START)` panics otherwise out of range, else the
`len` bytes at `ptr` are copied into a fresh buffer. -/
def copy_from_user (mem : Nat → Nat) (ptr len : Nat) : Option (List Nat) :=
  if U64_LIMIT ≤ ptr + len then none
  else if ptr + len < KERNEL_START then
    some ((List.range len).map fun i => mem (ptr + i))
  else none

/-- The `print` syscall handler: `none` is a panic, `some bytes` means the
bytes were logged. -/
def printSys (utf8Ok : List Nat → Bool) (mem : Nat → Nat) (x0 x1 : Nat) :
    Option (List Nat) :=
  match copy_from_user mem x0 x1 with
  | none => none
  | some bytes => if utf8Ok bytes then some bytes else none

/-- C8: the print handler panics iff `x0 + x1 ≥ KERNEL_START` (u64
overflow of the addition implies this, as `KERNEL_START < 2^64`) or the
copied buffer is not valid UTF-8; otherwise it emits exactly the `x1`
bytes at `x0`. -/
theorem print_syscall_contract (utf8Ok : List Nat → Bool) (mem : Nat → Nat)
    (x0 x1 : Nat) (_h0 : x0 < U64_LIMIT) (_h1 : x1 < U64_LIMIT) :
    (printSys utf8Ok mem x0 x1 = none ↔
      (KERNEL_START ≤ x0 + x1 ∨
        utf8Ok ((List.range x1).map fun i => mem (x0 + i)) = false)) ∧
    (∀ out, printSys utf8Ok mem x0 x1 = some out →
      out = (List.range x1).map fun i => mem (x0 + i)) := by
  have hK : KERNEL_START < U64_LIMIT := by decide
  simp only [printSys, copy_from_user]
  rcases Nat.lt_or_ge (x0 + x1) U64_LIMIT with hov | hov
  · rw [if_neg (by omega)]
    rcases Nat.lt_or_ge (x0 + x1) KERNEL_START with hk | hk
    · rw [if_pos hk]
      rcases hu : utf8Ok ((List.range x1).map fun i => mem (x0 + i)) with _ | _
      · simp [hu]
      · simp [hu]
        omega
    · rw [if_neg (by omega)]
      constructor
      · simp
        omega
      · intro out hout
        exact absurd hout (by simp)
  · rw [if_pos (by omega)]
    constructor
    · simp
      omega
    · intro out hout
      exact absurd hout (by simp)

/-- Witness for C8: printing two bytes of value 104 from user address
`0x1000` with an accepting UTF-8 check. -/
theorem print_syscall_contract_witness :
    (printSys (fun _ => true) (fun _ => 104) 0x1000 2 = none ↔
      (KERNEL_START ≤ 0x1000 + 2 ∨
        (fun _ => true) ((List.range 2).map fun i => (fun _ => (104 : Nat)) (0x1000 + i)) = false)) ∧
    (∀ out, printSys (fun _ => true) (fun _ => 104) 0x1000 2 = some out →
      out = (List.range 2).map fun i => (fun _ => (104 : Nat)) (0x1000 + i)) :=
  print_syscall_contract (fun _ => true) (fun _ => 104) 0x1000 2
    (by decide) (by decide)

/-! ## BootInfo memory map construction (boot-info/src/lib.rs) -/

inductive MemoryType where
  | unused
  | boot
  | acpi
  | mmio
  | kernel
deriving DecidableEq, Repr

/-- `MemoryBlock`: `{type, start PA, pages}`. -/
structure MemoryBlock where
  type_ : MemoryType
  start : Nat
  pages : Nat
deriving DecidableEq, Repr

/-- `can_merge` (Memory::new): consecutive (`a.start + a.pages * PAGE_SIZE
== b.start`) and of the same type. -/
def can_merge (a b : MemoryBlock) : Bool :=
  (a.start + a.pages * PAGE_SIZE == b.start) && (a.type_ == b.type_)

/-- The merge loop of `Memory::new`: while a block can merge with its
successor, absorb the successor's pages; otherwise advance. -/
def mergeRun : List MemoryBlock → List MemoryBlock
  | [] => []
  | [b] => [b]
  | a :: b :: t =>
    if can_merge a b then mergeRun (⟨a.type_, a.start, a.pages + b.pages⟩ :: t)
    else a :: mergeRun (b :: t)
termination_by l => l.length

/-- `Memory::new`: sort by start PA (`sort_unstable_by_key`, modelled by a
sort on the same key) and merge consecutive same-type touching blocks. -/
def memoryNew (blocks : List MemoryBlock) : List MemoryBlock :=
  mergeRun (blocks.mergeSort (fun a b => decide (a.start ≤ b.start)))

def sumPages (l : List MemoryBlock) : Nat := (l.map (·.pages)).sum

lemma mergeRun_starts : ∀ (l : List MemoryBlock), ∀ x ∈ mergeRun l,
    ∃ y ∈ l, x.start = y.start := by
  intro l
  induction l using mergeRun.induct with
  | case1 => simp [mergeRun]
  | case2 b => simp [mergeRun]
  | case3 a b t hm ih =>
    intro x hx
    rw [show mergeRun (a :: b :: t) = mergeRun (⟨a.type_, a.start, a.pages + b.pages⟩ :: t)
      from by simp [mergeRun, hm]] at hx
    obtain ⟨y, hy, hxy⟩ := ih x hx
    simp only [List.mem_cons] at hy
    rcases hy with rfl | hy
    · exact ⟨a, List.mem_cons_self _ _, hxy⟩
    · exact ⟨y, by simp [hy], hxy⟩
  | case4 a b t hm ih =>
    intro x hx
    rw [show mergeRun (a :: b :: t) = a :: mergeRun (b :: t)
      from by simp [mergeRun, hm]] at hx
    simp only [List.mem_cons] at hx
    rcases hx with rfl | hx
    · exact ⟨x, List.mem_cons_self _ _, rfl⟩
    · obtain ⟨y, hy, hxy⟩ := ih x hx
      exact ⟨y, List.mem_cons_of_mem _ hy, hxy⟩

lemma mergeRun_head_same : ∀ (l : List MemoryBlock) (hd : MemoryBlock)
    (tl : List MemoryBlock), l = hd :: tl →
    ∃ r rest, mergeRun l = r :: rest ∧ r.start = hd.start ∧
      r.type_ = hd.type_ := by
  intro l
  induction l using mergeRun.induct with
  | case1 => intro hd tl h; exact absurd h (by simp)
  | case2 b =>
    intro hd tl h
    injection h with h1 h2
    subst h1
    exact ⟨b, [], by simp [mergeRun], rfl, rfl⟩
  | case3 a b t hm ih =>
    intro hd tl h
    injection h with h1 h2
    subst h1
    obtain ⟨r, rest, hmr, hs, ht⟩ := ih _ _ rfl
    refine ⟨r, rest, ?_, hs, ht⟩
    rw [show mergeRun (a :: b :: t) =
      mergeRun (⟨a.type_, a.start, a.pages + b.pages⟩ :: t) from by
        simp [mergeRun, hm]]
    exact hmr
  | case4 a b t hm ih =>
    intro hd tl h
    injection h with h1 h2
    subst h1
    exact ⟨a, mergeRun (b :: t), by simp [mergeRun, hm], rfl, rfl⟩

lemma mergeRun_pairwise : ∀ (l : List MemoryBlock),
    List.Pairwise (fun a b => a.start ≤ b.start) l →
    List.Pairwise (fun a b => a.start ≤ b.start) (mergeRun l) := by
  intro l
  induction l using mergeRun.induct with
  | case1 => intro _; simp [mergeRun]
  | case2 b => intro _; simp [mergeRun]
  | case3 a b t hm ih =>
    intro h
    rw [List.pairwise_cons] at h
    obtain ⟨hafter, hbt⟩ := h
    rw [List.pairwise_cons] at hbt
    rw [show mergeRun (a :: b :: t) =
      mergeRun (⟨a.type_, a.start, a.pages + b.pages⟩ :: t) from by
        simp [mergeRun, hm]]
    refine ih (List.pairwise_cons.mpr ⟨fun y hy => ?_, hbt.2⟩)
    exact hafter y (List.mem_cons_of_mem _ hy)
  | case4 a b t hm ih =>
    intro h
    rw [List.pairwise_cons] at h
    obtain ⟨hafter, hbt⟩ := h
    rw [show mergeRun (a :: b :: t) = a :: mergeRun (b :: t) from by
      simp [mergeRun, hm]]
    refine List.pairwise_cons.mpr ⟨fun y hy => ?_, ih hbt⟩
    obtain ⟨z, hz, hyz⟩ := mergeRun_starts _ y hy
    rw [hyz]
    exact hafter z hz

lemma mergeRun_not_mergeable : ∀ (l : List MemoryBlock),
    List.Chain' (fun a b => can_merge a b = false) (mergeRun l) := by
  intro l
  induction l using mergeRun.induct with
  | case1 => simp [mergeRun]
  | case2 b => simp [mergeRun]
  | case3 a b t hm ih =>
    rw [show mergeRun (a :: b :: t) =
      mergeRun (⟨a.type_, a.start, a.pages + b.pages⟩ :: t) from by
        simp [mergeRun, hm]]
    exact ih
  | case4 a b t hm ih =>
    rw [show mergeRun (a :: b :: t) = a :: mergeRun (b :: t) from by
      simp [mergeRun, hm]]
    obtain ⟨r, rest, hmr, hs, ht⟩ := mergeRun_head_same (b :: t) b t rfl
    rw [hmr]
    rw [hmr] at ih
    refine List.Chain'.cons ?_ ih
    show can_merge a r = false
    have heq : can_merge a r = can_merge a b := by
      simp [can_merge, hs, ht]
    rw [heq]
    simpa using hm

lemma mergeRun_sum : ∀ (l : List MemoryBlock),
    sumPages (mergeRun l) = sumPages l := by
  intro l
  induction l using mergeRun.induct with
  | case1 => simp [mergeRun]
  | case2 b => simp [mergeRun]
  | case3 a b t hm ih =>
    rw [show mergeRun (a :: b :: t) =
      mergeRun (⟨a.type_, a.start, a.pages + b.pages⟩ :: t) from by
        simp [mergeRun, hm]]
    rw [ih]
    simp [sumPages]
    omega
  | case4 a b t hm ih =>
    rw [show mergeRun (a :: b :: t) = a :: mergeRun (b :: t) from by
      simp [mergeRun, hm]]
    simp only [sumPages, List.map_cons, List.sum_cons] at ih ⊢
    rw [ih]

/-- C9: `Memory::new` sorts the blocks by start PA and maximally merges
touching same-type runs, preserving the total page count. -/
theorem memory_new_sorted_merged (blocks : List MemoryBlock) :
    List.Pairwise (fun a b => a.start ≤ b.start) (memoryNew blocks) ∧
    List.Chain' (fun a b => can_merge a b = false) (memoryNew blocks) ∧
    sumPages (memoryNew blocks) = sumPages blocks := by
  have hsorted := @List.sorted_mergeSort MemoryBlock
    (fun a b : MemoryBlock => decide (a.start ≤ b.start))
    (fun a b c hab hbc => by
      simp only [decide_eq_true_eq] at hab hbc ⊢
      omega)
    (fun a b => by
      simp only [Bool.or_eq_true, decide_eq_true_eq]
      exact Nat.le_total _ _)
    blocks
  have hpw : List.Pairwise (fun a b : MemoryBlock => a.start ≤ b.start)
      (blocks.mergeSort fun a b => decide (a.start ≤ b.start)) :=
    hsorted.imp (fun h => by simpa using h)
  refine ⟨mergeRun_pairwise _ hpw, mergeRun_not_mergeable _, ?_⟩
  rw [memoryNew, mergeRun_sum]
  have hperm := List.mergeSort_perm blocks
    (fun a b => decide (a.start ≤ b.start))
  exact (hperm.map (·.pages)).sum_eq

/-! ## User segment loading (kernel/src/process.rs)

`load_address_space` reads each PT_LOAD segment into a buffer of
`memory_size` bytes, maps one freshly copied frame per full 4096-byte
chunk (`chunks_exact`), and then unconditionally maps one extra zeroed
frame holding the `chunks_exact` remainder. -/

/-- Rust's `chunks_exact(k)` over a byte list: the full chunks and the
remainder. -/
def chunksExact (k : Nat) (l : List Nat) : List (List Nat) × List Nat :=
  if _h : 0 < k ∧ k ≤ l.length then
    let r := chunksExact k (l.drop k)
    (l.take k :: r.1, r.2)
  else ([], l)
termination_by l.length
decreasing_by
  simp only [List.length_drop]
  omega

/-- The per-chunk loop of `load_address_space`: each chunk is copied into
a fresh frame and mapped at the next VPN. The result lists the
`(vpn, frame contents)` pairs in mapping order. -/
def loadPages (vpn : Nat) : List (List Nat) → List (Nat × List Nat)
  | [] => []
  | c :: cs => (vpn, c) :: loadPages (vpn + 1) cs

/-- One PT_LOAD segment of `load_address_space`: map the full chunks, then
map one more frame — `alloc_zero`ed, with the remainder copied into its
first bytes. -/
def loadSegment (vpn0 : Nat) (data : List Nat) : List (Nat × List Nat) :=
  let pr := chunksExact PAGE_SIZE data
  loadPages vpn0 pr.1 ++
    [(vpn0 + pr.1.length, pr.2 ++ List.replicate (PAGE_SIZE - pr.2.length) 0)]

lemma chunksExact_exact (k : Nat) (hk : 0 < k) :
    ∀ (n : Nat) (data : List Nat), data.length = n * k →
      (chunksExact k data).1.length = n ∧ (chunksExact k data).2 = [] := by
  intro n
  induction n with
  | zero =>
    intro data hlen
    rw [chunksExact, dif_neg (by omega)]
    refine ⟨by trivial, List.eq_nil_of_length_eq_zero (show data.length = 0 by omega)⟩
  | succ n ih =>
    intro data hlen
    have hx : (n + 1) * k = n * k + k := by ring
    rw [chunksExact, dif_pos ⟨hk, by omega⟩]
    have hdrop : (data.drop k).length = n * k := by
      simp only [List.length_drop]
      omega
    obtain ⟨h1, h2⟩ := ih (data.drop k) hdrop
    exact ⟨by simp [h1], h2⟩

lemma loadPages_map_fst :
    ∀ (cs : List (List Nat)) (v : Nat),
      (loadPages v cs).map Prod.fst = List.range' v cs.length := by
  intro cs
  induction cs with
  | nil => intro v; rfl
  | cons c cs ih =>
    intro v
    simp only [loadPages, List.map_cons, List.length_cons, List.range'_succ]
    rw [ih]

lemma loadPages_length (cs : List (List Nat)) :
    ∀ v, (loadPages v cs).length = cs.length := by
  induction cs with
  | nil => intro v; rfl
  | cons c cs ih => intro v; simp [loadPages, ih]

/-- C10: a loadable segment whose memory size is an exact multiple
`n * 4096` still gets one extra zeroed frame mapped after its `n` full
pages: `n + 1` consecutive VPNs are mapped, and the last frame is all
zeroes. -/
theorem load_segment_extra_page (n vpn0 : Nat) (data : List Nat)
    (hlen : data.length = n * PAGE_SIZE) :
    (loadSegment vpn0 data).length = n + 1 ∧
    (loadSegment vpn0 data).map Prod.fst = List.range' vpn0 (n + 1) ∧
    (loadSegment vpn0 data).getLast? =
      some (vpn0 + n, List.replicate PAGE_SIZE 0) := by
  have hps : 0 < PAGE_SIZE := by decide
  obtain ⟨h1, h2⟩ := chunksExact_exact PAGE_SIZE hps n data hlen
  refine ⟨?_, ?_, ?_⟩
  · simp [loadSegment, loadPages_length, h1]
  · simp only [loadSegment, List.map_append, loadPages_map_fst, h1,
      List.map_cons, List.map_nil]
    rw [List.range'_1_concat]
  · simp only [loadSegment, h1, h2, List.nil_append, List.length_nil,
      Nat.sub_zero]
    rw [List.getLast?_concat]

/-- Witness for C10 at a zero-length (0-page) segment: one page is still
mapped, entirely zeroed. -/
theorem load_segment_extra_page_witness :
    (loadSegment 7 []).length = 0 + 1 ∧
    (loadSegment 7 []).map Prod.fst = List.range' 7 (0 + 1) ∧
    (loadSegment 7 []).getLast? = some (7 + 0, List.replicate PAGE_SIZE 0) :=
  load_segment_extra_page 0 7 [] rfl

end TeaOS
